import Mathlib

/-!
# linkWatch: verification of the checker, store and API helpers

A shallow embedding, in Lean 4, of the parts of the linkWatch repository
(Go) that the specification's claims are about:

* the probe executor `performCheck` and its `CheckResult` record
  (internal/checker, performCheck);
* the background checker's concurrency structure: a global semaphore
  (buffered channel of capacity `maxConcurrency`), lazily created per-host
  semaphores of capacity 2, and the cancellation/abort structure of a
  scheduling pass (internal/checker: scheduleChecks, checkTarget,
  acquireHostSemaphore, releaseHostSemaphore), modelled as an explicit
  transition system;
* the lifecycle operations `Start` and `Shutdown`;
* the store operations `UpsertTargetByURL` and `GetTargets`
  (internal/store), modelled over a list of rows, with SQLite's TEXT
  ordering modelled by lexicographic `String` order;
* URL canonicalization (internal/model/canonicalize.go) over a character
  list model of the relevant fragment of Go's net/url;
* the pagination cursor helpers `buildCursorToken` / `parseCursorToken`
  (internal/http), with base64url and the fixed-width RFC3339 layout
  implemented concretely.

Machine integers do not overflow in any modelled code path, so numbers are
modelled as `Nat`.  Wall-clock values (`checkedAt`, latencies, the
shutdown grace period) are abstract `Nat` instants.  Every definition is
executable.
-/

/-! ## Definitions -/

/-! ### CheckResult and the probe executor (internal/checker, performCheck) -/

/-- A row of the check_results table / the struct store.CheckResult.
The Go fields StatusCode *int and Error *string are the two optional
fields; TargetID, CheckedAt and LatencyMs are always set. -/
structure CheckResult where
  targetId : String
  checkedAt : Nat
  statusCode : Option Nat
  latencyMs : Nat
  error : Option String
deriving Repr, DecidableEq

/-- The outcome of the single HTTP GET issued by performCheck:
either client.Get returned a transport-level error (err != nil), or a
response completed with some status code (any class). -/
inductive ProbeOutcome where
  | transportError (msg : String)
  | response (status : Nat)
deriving Repr, DecidableEq

/-- Shallow embedding of performCheck (internal/checker).  The Go code
builds one result with TargetID, CheckedAt and LatencyMs always set, then
sets Error from err.Error() when the GET failed, and otherwise sets
StatusCode from resp.StatusCode.  The HTTP outcome, the latency and the
clock reading are explicit inputs here. -/
def performCheck (targetId : String) (outcome : ProbeOutcome)
    (checkedAt latencyMs : Nat) : CheckResult :=
  let result : CheckResult :=
    { targetId := targetId, checkedAt := checkedAt,
      statusCode := none, latencyMs := latencyMs, error := none }
  match outcome with
  | .transportError msg => { result with error := some msg }
  | .response status => { result with statusCode := some status }

/-! ### Target rows and the store (internal/store) -/

/-- A row of the targets table / the struct store.Target.  created_at is
persisted as a TEXT column holding the RFC3339 rendering of the creation
time; SQLite compares and orders it as a string, so it is a `String`
here. -/
structure Target where
  id : String
  url : String
  host : String
  createdAt : String
deriving Repr, DecidableEq

/-- The query SELECT ... FROM targets WHERE url = ? behind
UpsertTargetByURL: the first stored row with the given url, if any. -/
def findTargetByURL (rows : List Target) (url : String) : Option Target :=
  rows.find? (fun t => t.url == url)

/-- Shallow embedding of SQLiteStore.UpsertTargetByURL.  If a row with the
canonical URL exists it is returned with created = false and the table is
untouched; otherwise a fresh row (id "t_" ++ a generated UUID, creation
time now) is inserted and returned with created = true.  The generated
UUID and the clock reading are explicit inputs.  Returns (target, created,
table after the call). -/
def UpsertTargetByURL (rows : List Target) (canonicalURL host : String)
    (freshId now : String) : Target × Bool × List Target :=
  match findTargetByURL rows canonicalURL with
  | some t => (t, false, rows)
  | none =>
    let t : Target :=
      { id := "t_" ++ freshId, url := canonicalURL, host := host,
        createdAt := now }
    (t, true, rows ++ [t])

/-- The ORDER BY created_at, id comparison used by GetTargets, on the TEXT
representation SQLite actually compares. -/
def targetLE (a b : Target) : Bool :=
  decide (a.createdAt < b.createdAt ∨ (a.createdAt = b.createdAt ∧ a.id ≤ b.id))

/-- The cursor predicate (created_at > ? OR (created_at = ? AND id > ?))
of GetTargets. -/
def afterCursor (afterCreatedAt afterID : String) (t : Target) : Bool :=
  decide (afterCreatedAt < t.createdAt ∨
    (t.createdAt = afterCreatedAt ∧ afterID < t.id))

/-- Shallow embedding of SQLiteStore.GetTargets: the rows satisfying the
optional host filter and the optional cursor filter, in
ORDER BY created_at, id, truncated by LIMIT.  A zero afterCreatedAt
(afterCreatedAt.IsZero in Go, which skips the cursor clause) is modelled
by the empty string. -/
def GetTargets (rows : List Target) (hostFilter : String)
    (afterCreatedAt afterID : String) (limit : Nat) : List Target :=
  let filtered := rows.filter (fun t => hostFilter == "" || t.host == hostFilter)
  let filtered :=
    if afterCreatedAt == "" then filtered
    else filtered.filter (afterCursor afterCreatedAt afterID)
  (filtered.mergeSort targetLE).take limit

/-- The fetch performed by each scheduling pass (scheduleChecks):
c.store.GetTargets(c.ctx, "", time.Time each zero, "", 1000). -/
def scheduledTargets (rows : List Target) : List Target :=
  GetTargets rows "" "" "" 1000

/-! ### The checker's concurrency structure (internal/checker)

The checker shares, across its goroutines, the buffered channel
c.workers (capacity maxConcurrency), the map c.hostSemaphores of buffered
channels of capacity 2, and the cancellation context.  We model this as a
transition system: each constructor of `CheckerStep` is one atomic
interaction of the Go code with that shared state.  A spawned checkTarget
goroutine is a `ProbeTask`; a task that is not yet finished is exactly a
holder of one slot of the global channel (the send happens in
scheduleChecks immediately before go checkTarget, the receive in the
deferred release that runs when checkTarget returns). -/

/-- The phase of one spawned checkTarget goroutine.  waitingHost: inside
acquireHostSemaphore's select.  running: host slot held, performing the
probe and the result write.  finished: returned (global slot given back,
and the host slot too if one was held). -/
inductive TaskPhase where
  | waitingHost
  | running
  | finished
deriving Repr, DecidableEq

/-- One spawned checkTarget goroutine and the host of its target. -/
structure ProbeTask where
  host : String
  phase : TaskPhase
deriving Repr, DecidableEq

/-- Configuration fixed at NewChecker time: the global cap (capacity of
the c.workers channel) and the target list each tick's GetTargets call
returns (held fixed so that a pass's accounting can be stated). -/
structure CheckerConfig where
  maxConcurrency : Nat
  fetched : List Target

/-- The shared state of the checker.  hostSems is the
map[string]chan struct cell: an association list from hostname to the
number of held slots of that host's semaphore; an absent key is an
absent map entry (not yet lazily created).  pending/admitted/aborted
describe the current scheduling pass; tasks the spawned goroutines. -/
structure CheckerState where
  cancelled : Bool
  aborted : Bool
  pending : List Target
  admitted : List Target
  tasks : List ProbeTask
  hostSems : List (String × Nat)
deriving Repr, DecidableEq

/-- Number of global-slot holders: goroutines spawned by scheduleChecks
whose deferred release has not yet run. -/
def liveCount (tasks : List ProbeTask) : Nat :=
  tasks.countP (fun t => t.phase != .finished)

/-- Held slots of host h's semaphore (0 when the map entry is absent). -/
def hostHeld (sems : List (String × Nat)) (h : String) : Nat :=
  (sems.lookup h).getD 0

/-- The lazy map initialisation in acquireHostSemaphore: if no entry for h
exists, one is created (a fresh channel: zero held slots). -/
def ensureHost (sems : List (String × Nat)) (h : String) : List (String × Nat) :=
  match sems with
  | [] => [(h, 0)]
  | (k, n) :: rest =>
    if k = h then (k, n) :: rest else (k, n) :: ensureHost rest h

/-- A successful send on host h's semaphore channel. -/
def incrHost (sems : List (String × Nat)) (h : String) : List (String × Nat) :=
  match sems with
  | [] => []
  | (k, n) :: rest =>
    if k = h then (k, n + 1) :: rest else (k, n) :: incrHost rest h

/-- A receive on host h's semaphore channel (releaseHostSemaphore). -/
def decrHost (sems : List (String × Nat)) (h : String) : List (String × Nat) :=
  match sems with
  | [] => []
  | (k, n) :: rest =>
    if k = h then (k, n - 1) :: rest else (k, n) :: decrHost rest h

/-- The state NewChecker builds: fresh context, empty channel, empty host
map, no pass in progress. -/
def initialCheckerState : CheckerState :=
  { cancelled := false, aborted := false, pending := [], admitted := [],
    tasks := [], hostSems := [] }

/-- One atomic step of the checker.  Each constructor names the Go code it
embeds:

* cancel: c.cancel() makes ctx.Done ready (it stays ready forever).
* tick: the ticker fires and scheduleChecks fetches cfg.fetched (a pass
  only starts when no pass is mid-admission, since passes are sequential
  in the scheduler goroutine, and only while the loop has not observed
  ctx.Done).
* admitOne: one iteration of the for loop in scheduleChecks takes the
  select's send branch: it requires a free slot of c.workers (fewer than
  maxConcurrency holders) and spawns a checkTarget goroutine; the target
  moves from pending to admitted.  Go's select chooses freely when both
  branches are ready, so this step does not require cancelled = false.
* abortPass: the select takes the ctx.Done branch and scheduleChecks
  returns, dropping the rest of the pass.
* hostAcquire: a waiting task's select inside acquireHostSemaphore takes
  the send branch: the (lazily created) entry for its host has a free
  slot (fewer than 2 holders).
* hostAcquireCancelled: that select takes the ctx.Done branch; the map
  entry has still been created, the task returns without a host slot
  (its deferred global release runs: it is finished).
* finish: a running task completes its probe and result write; the
  deferred releaseHostSemaphore and global release run. -/
inductive CheckerStep (cfg : CheckerConfig) : CheckerState → CheckerState → Prop where
  | cancel (s : CheckerState) :
      CheckerStep cfg s { s with cancelled := true }
  | tick (s : CheckerState) :
      s.pending = [] → s.aborted = false → s.cancelled = false →
      CheckerStep cfg s { s with pending := cfg.fetched, admitted := [] }
  | admitOne (s : CheckerState) (t : Target) (rest : List Target) :
      s.pending = t :: rest → s.aborted = false →
      liveCount s.tasks < cfg.maxConcurrency →
      CheckerStep cfg s
        { s with
          pending := rest,
          admitted := s.admitted ++ [t],
          tasks := s.tasks ++ [⟨t.host, .waitingHost⟩] }
  | abortPass (s : CheckerState) :
      s.cancelled = true → s.aborted = false → s.pending ≠ [] →
      CheckerStep cfg s { s with aborted := true }
  | hostAcquire (s : CheckerState) (i : Nat) (tk : ProbeTask) :
      s.tasks[i]? = some tk → tk.phase = .waitingHost →
      hostHeld s.hostSems tk.host < 2 →
      CheckerStep cfg s
        { s with
          tasks := s.tasks.set i ({ tk with phase := .running }),
          hostSems := incrHost (ensureHost s.hostSems tk.host) tk.host }
  | hostAcquireCancelled (s : CheckerState) (i : Nat) (tk : ProbeTask) :
      s.tasks[i]? = some tk → tk.phase = .waitingHost →
      s.cancelled = true →
      CheckerStep cfg s
        { s with
          tasks := s.tasks.set i ({ tk with phase := .finished }),
          hostSems := ensureHost s.hostSems tk.host }
  | finish (s : CheckerState) (i : Nat) (tk : ProbeTask) :
      s.tasks[i]? = some tk → tk.phase = .running →
      CheckerStep cfg s
        { s with
          tasks := s.tasks.set i ({ tk with phase := .finished }),
          hostSems := decrHost s.hostSems tk.host }

/-- States the checker can actually be in, starting from NewChecker's
state. -/
inductive CheckerReachable (cfg : CheckerConfig) : CheckerState → Prop where
  | init : CheckerReachable cfg initialCheckerState
  | step {s s' : CheckerState} :
      CheckerReachable cfg s → CheckerStep cfg s s' → CheckerReachable cfg s'

/-! ### Lifecycle: Start and Shutdown (internal/checker) -/

/-- The state Start touches: the number of scheduler goroutines that have
been spawned (each call performs c.wg.Add(1); go c.scheduler() with no
guard whatsoever). -/
structure LifecycleState where
  schedulerLoops : Nat
deriving Repr, DecidableEq

/-- Shallow embedding of Checker.Start: unconditionally spawn one more
scheduler goroutine. -/
def Start (s : LifecycleState) : LifecycleState :=
  { schedulerLoops := s.schedulerLoops + 1 }

/-- The checker state before any Start call. -/
def newLifecycle : LifecycleState :=
  { schedulerLoops := 0 }

/-- What a call to Checker.Shutdown produces.  waited: how long the caller
was blocked.  cleanLogged: which of the two fmt.Println messages was
printed ("checker shut down gracefully" vs "shutdown timed out, forcing
exit").  returned: the value handed back to the caller — the Go signature
is func (c *Checker) Shutdown(), so this is Unit.  cancelledAfter: the
context state when the call returns. -/
structure ShutdownResult where
  waited : Nat
  cleanLogged : Bool
  returned : Unit
  cancelledAfter : Bool
deriving Repr, DecidableEq

/-- Shallow embedding of Checker.Shutdown.  durations are the remaining
running times of the tasks the WaitGroup is tracking when Shutdown is
called (empty when none are outstanding); c.wg.Wait() fires once all of
them are done, i.e. after their maximum.  The select then races that
against time.After(c.shutdownGrace), so the caller is blocked for the
minimum of the two, the printed message says which side won, and nothing
is returned. -/
def Shutdown (durations : List Nat) (grace : Nat) : ShutdownResult :=
  let allDone := durations.foldr max 0
  { waited := min allDone grace,
    cleanLogged := decide (allDone ≤ grace),
    returned := (),
    cancelledAfter := true }

/-! ### URL canonicalization (internal/model/canonicalize.go)

Canonicalize parses with net/url.Parse, rejects non-http(s) schemes,
lowercases scheme and host, strips a default port, clears the fragment,
sorts the query parameters via url.ParseQuery and rebuilds them, trims
one trailing slash from the path, and renders with URL.String.  We model
the fragment of net/url the code exercises, over character lists: URLs
of the shape scheme://host[path][?query][#fragment].  Model scope (the
parser returns none outside it, matching the rejections the code makes
or leaving the modelled fragment):

* the authority holds a nonempty host with no userinfo and no bracketed
  IPv6 literal; host characters are limited to characters URL.String
  renders verbatim (ASCII letters, digits, "-", ".", "_", ":");
* path characters likewise (ASCII letters, digits, "-", ".", "_", "~",
  "/"), so in particular no percent-escapes in the path;
* a "?" immediately followed by end or "#" (Go's ForceQuery) is outside
  the model;
* query and fragment content is arbitrary up to their delimiters;
  percent-escapes and "+" in the query are decoded exactly as
  url.ParseQuery does, and URL.String emits RawQuery verbatim. -/

/-- Split at the first occurrence of a separator: the part before it and,
when present, the part after it (which may contain further separators). -/
def cutOn (sep : Char) : List Char → List Char × Option (List Char)
  | [] => ([], none)
  | c :: rest =>
    if c = sep then ([], some rest)
    else
      match cutOn sep rest with
      | (a, b) => (c :: a, b)

/-- ASCII letter. -/
def isAsciiLetter (c : Char) : Bool :=
  decide ((65 ≤ c.toNat ∧ c.toNat ≤ 90) ∨ (97 ≤ c.toNat ∧ c.toNat ≤ 122))

/-- ASCII digit. -/
def isDigitChar (c : Char) : Bool :=
  decide (48 ≤ c.toNat ∧ c.toNat ≤ 57)

/-- Characters URL.String writes verbatim in the host (the modelled
subset). -/
def hostSafeChar (c : Char) : Bool :=
  isAsciiLetter c || isDigitChar c || decide (c = '-') || decide (c = '.') ||
    decide (c = '_') || decide (c = ':')

/-- Characters URL.String writes verbatim in the path (the modelled
subset). -/
def pathSafeChar (c : Char) : Bool :=
  isAsciiLetter c || isDigitChar c || decide (c = '-') || decide (c = '.') ||
    decide (c = '_') || decide (c = '~') || decide (c = '/')

/-- strings.ToLower over the modelled ASCII content. -/
def toLowerList (l : List Char) : List Char :=
  l.map Char.toLower

/-- The fields of a parsed net/url.URL the code reads: Scheme, Host,
Path, RawQuery, Fragment. -/
structure URLParts where
  scheme : List Char
  host : List Char
  path : List Char
  query : List Char
  fragment : List Char
deriving Repr, DecidableEq

/-- url.Parse for the modelled shape: the fragment is cut at the first
"#", the query at the first "?", the scheme at the first ":" (and is
lowercased by Parse itself), the authority runs to the next "/", the
rest is the path. -/
def parseURL (s : List Char) : Option URLParts :=
  match cutOn '#' s with
  | (noFrag, fragOpt) =>
    match cutOn '?' noFrag with
    | (noQuery, queryOpt) =>
      if queryOpt = some ([] : List Char) then none
      else
        match cutOn ':' noQuery with
        | (_, none) => none
        | (schemeRaw, some rest) =>
          if schemeRaw = [] then none
          else if rest.take 2 = ['/', '/'] then
            let afterSlashes := rest.drop 2
            let host := afterSlashes.takeWhile (fun c => c != '/')
            let path := afterSlashes.dropWhile (fun c => c != '/')
            if host = [] then none
            else if host.all hostSafeChar && path.all pathSafeChar then
              some ⟨toLowerList schemeRaw, host, path,
                queryOpt.getD [], fragOpt.getD []⟩
            else none
          else none

/-- Split the host at its last colon, when it has one. -/
def splitLastColon : List Char → Option (List Char × List Char)
  | [] => none
  | c :: rest =>
    match splitLastColon rest with
    | some (a, b) => some (c :: a, b)
    | none => if c = ':' then some ([], rest) else none

/-- url.URL.Port(): the all-digit text after the last colon, empty
otherwise. -/
def port (host : List Char) : List Char :=
  match splitLastColon host with
  | some (_, p) => if p.all isDigitChar then p else []
  | none => []

/-- url.URL.Hostname() as Canonicalize uses it: the host with a valid
numeric port stripped. -/
def hostname (host : List Char) : List Char :=
  match splitLastColon host with
  | some (a, p) => if p.all isDigitChar then a else host
  | none => host

/-- strings.Split on a single-character separator. -/
def splitOnChar (sep : Char) : List Char → List (List Char)
  | [] => [[]]
  | c :: rest =>
    if c = sep then [] :: splitOnChar sep rest
    else
      match splitOnChar sep rest with
      | [] => [[c]]
      | p :: ps => (c :: p) :: ps

/-- One hexadecimal digit. -/
def hexDigit? (c : Char) : Option Nat :=
  if 48 ≤ c.toNat ∧ c.toNat ≤ 57 then some (c.toNat - 48)
  else if 65 ≤ c.toNat ∧ c.toNat ≤ 70 then some (c.toNat - 65 + 10)
  else if 97 ≤ c.toNat ∧ c.toNat ≤ 102 then some (c.toNat - 97 + 10)
  else none

/-- url.QueryUnescape: "%XX" decodes to the byte XX (an invalid escape is
an error), "+" decodes to space, everything else passes through. -/
def queryUnescape : List Char → Option (List Char)
  | [] => some []
  | c :: rest =>
    if c = '%' then
      match rest with
      | h1 :: h2 :: rest2 =>
        match hexDigit? h1, hexDigit? h2, queryUnescape rest2 with
        | some v1, some v2, some out => some (Char.ofNat (v1 * 16 + v2) :: out)
        | _, _, _ => none
      | _ => none
    else if c = '+' then
      match queryUnescape rest with
      | some out => some (' ' :: out)
      | none => none
    else
      match queryUnescape rest with
      | some out => some (c :: out)
      | none => none

/-- One piece of a query: cut key from value at the first "=", unescape
both. -/
def parsePiece (piece : List Char) : Option (List Char × List Char) :=
  match cutOn '=' piece with
  | (k, vOpt) =>
    match queryUnescape k, queryUnescape (vOpt.getD []) with
    | some k2, some v2 => some (k2, v2)
    | _, _ => none

/-- url.ParseQuery's loop over the "&"-separated pieces: a piece holding
";" is an error, an empty piece is skipped, any unescape error is an
error; the pairs keep query order. -/
def parseQueryList : List (List Char) → Option (List (List Char × List Char))
  | [] => some []
  | piece :: rest =>
    if ';' ∈ piece then none
    else if piece = [] then parseQueryList rest
    else
      match parsePiece piece, parseQueryList rest with
      | some kv, some tail => some (kv :: tail)
      | _, _ => none

/-- url.ParseQuery on a raw query (an error anywhere makes the whole
parse an error, as ParseQuery returns the error it collected). -/
def parseQuery (q : List Char) : Option (List (List Char × List Char)) :=
  parseQueryList (splitOnChar '&' q)

/-- Lexicographic order on the modelled strings, as sort.Strings
compares. -/
def strLE (a b : List Char) : Bool :=
  decide (a ≤ b)

/-- sort.Strings on the collected map keys (insertion sort computes the
same lexicographically sorted permutation sort.Strings produces). -/
def sortStrings (l : List (List Char)) : List (List Char) :=
  l.insertionSort (fun a b => strLE a b = true)

/-- The body of sortQueryParams: collect the distinct keys (a Go map has
each key once), sort them, and concatenate each key's values in query
order. -/
def groupSort (pairs : List (List Char × List Char)) :
    List (List Char × List Char) :=
  (sortStrings ((pairs.map Prod.fst).dedup)).flatMap
    (fun k => pairs.filter (fun p => decide (p.1 = k)))

/-- strings.Join of the "k=v" renderings with "&"
(fmt.Sprintf("%s=%s", k, v) writes the decoded strings verbatim). -/
def rebuildQuery : List (List Char × List Char) → List Char
  | [] => []
  | [p] => p.1 ++ '=' :: p.2
  | p :: rest => p.1 ++ '=' :: p.2 ++ '&' :: rebuildQuery rest

/-- sortQueryParams (internal/model/canonicalize.go): on a ParseQuery
error return the raw query unchanged, otherwise rebuild with keys
sorted. -/
def sortQueryParams (rawQuery : List Char) : List Char :=
  match parseQuery rawQuery with
  | none => rawQuery
  | some pairs => rebuildQuery (groupSort pairs)

/-- normalizePath (internal/model/canonicalize.go): empty or root paths
become empty, one trailing slash is trimmed. -/
def normalizePath (path : List Char) : List Char :=
  if path = [] ∨ path = ['/'] then []
  else if path.getLast? = some '/' then path.dropLast
  else path

/-- url.URL.String() for the modelled shape: scheme://host + path +
?query (query verbatim, "?" only when the query is nonempty, fragment
cleared). -/
def renderURL (scheme host path query : List Char) : List Char :=
  scheme ++ ':' :: '/' :: '/' ::
    (host ++ path ++ (if query = [] then [] else '?' :: query))

/-- Canonicalize (internal/model/canonicalize.go): parse; reject any
scheme but http/https; lowercase scheme and host; strip a default port;
clear the fragment; sort a nonempty query; normalize the path; render.
Returns (canonical URL, host). -/
def Canonicalize (raw : List Char) : Option (List Char × List Char) :=
  match parseURL raw with
  | none => none
  | some u =>
    if u.scheme = "http".toList ∨ u.scheme = "https".toList then
      let scheme2 := toLowerList u.scheme
      let host1 := toLowerList u.host
      let host2 :=
        if scheme2 = "http".toList ∧ port host1 = "80".toList then
          hostname host1
        else if scheme2 = "https".toList ∧ port host1 = "443".toList then
          hostname host1
        else host1
      let query2 := if u.query = [] then [] else sortQueryParams u.query
      let path2 := normalizePath u.path
      some (renderURL scheme2 host2 path2 query2, host2)
    else none

/-! ### Pagination cursor tokens (internal/http: buildCursorToken,
parseCursorToken)

buildCursorToken renders the cursor's creation time with
time.Format(time.RFC3339), joins it with the id by "|" and base64url
encodes the bytes; parseCursorToken inverts this, mapping every failure
to the zero time and empty id.  We model strings as character lists and
wall-clock instants as broken-down UTC civil times (the form Go's
formatting and parsing pipeline itself works in).  Model scope, each
point documented where it matters: times are UTC (Format would render a
non-UTC offset instead of Z), years are at most 9999 (Go prints more
than four digits beyond that), and string content is ASCII so that the
UTF-8 bytes Go encodes coincide with character codes. -/

/-- A broken-down UTC instant, exactly the fields Go's RFC3339
formatting writes and its parsing reads.  time.Format(time.RFC3339)
renders no sub-second digits, so nanosecond is carried but never
rendered. -/
structure GoTime where
  year : Nat
  month : Nat
  day : Nat
  hour : Nat
  minute : Nat
  second : Nat
  nanosecond : Nat
deriving Repr, DecidableEq

/-- Go's zero time.Time: January 1, year 1, 00:00:00 UTC. -/
def zeroGoTime : GoTime :=
  { year := 1, month := 1, day := 1, hour := 0, minute := 0, second := 0,
    nanosecond := 0 }

/-- Gregorian leap year rule, as in Go's time package. -/
def isLeapYear (y : Nat) : Bool :=
  y % 4 == 0 && (y % 100 != 0 || y % 400 == 0)

/-- Days in a month, as Go's time package validates them when parsing. -/
def daysIn (m y : Nat) : Nat :=
  if m = 2 then (if isLeapYear y then 29 else 28)
  else if m = 4 ∨ m = 6 ∨ m = 9 ∨ m = 11 then 30
  else 31

/-- The field ranges Go's time.Parse accepts for an RFC3339 timestamp. -/
def validGoDateTime (t : GoTime) : Prop :=
  1 ≤ t.month ∧ t.month ≤ 12 ∧ 1 ≤ t.day ∧ t.day ≤ daysIn t.month t.year ∧
  t.hour ≤ 23 ∧ t.minute ≤ 59 ∧ t.second ≤ 59

instance (t : GoTime) : Decidable (validGoDateTime t) := by
  unfold validGoDateTime
  infer_instance

/-- The ASCII digit for a value below ten. -/
def digitChar (d : Nat) : Char :=
  Char.ofNat (48 + d)

/-- Reading one ASCII digit back. -/
def digit? (c : Char) : Option Nat :=
  if 48 ≤ c.toNat ∧ c.toNat ≤ 57 then some (c.toNat - 48) else none

/-- Two-digit zero-padded rendering (Go's "01", "02", "15", "04", "05"
layout fields). -/
def pad2 (n : Nat) : List Char :=
  [digitChar (n / 10 % 10), digitChar (n % 10)]

/-- Four-digit zero-padded rendering (Go's "2006" layout field; faithful
for years up to 9999, beyond which Go prints more digits). -/
def pad4 (n : Nat) : List Char :=
  [digitChar (n / 1000 % 10), digitChar (n / 100 % 10),
   digitChar (n / 10 % 10), digitChar (n % 10)]

/-- time.Format(time.RFC3339) for a UTC instant:
YYYY-MM-DDTHH:MM:SSZ. -/
def formatRFC3339 (t : GoTime) : List Char :=
  pad4 t.year ++ '-' :: pad2 t.month ++ '-' :: pad2 t.day ++
    'T' :: pad2 t.hour ++ ':' :: pad2 t.minute ++ ':' :: pad2 t.second ++ ['Z']

/-- time.Parse(time.RFC3339, s) for the UTC layout: the fixed-width
twenty-character shape, digit fields read positionally, field ranges
validated, nanoseconds zero (the layout has no fractional seconds). -/
def parseRFC3339 (s : List Char) : Option GoTime :=
  match s with
  | [y1, y2, y3, y4, sep1, mo1, mo2, sep2, d1, d2, sepT, h1, h2, sep3,
     mi1, mi2, sep4, se1, se2, z] =>
    match digit? y1, digit? y2, digit? y3, digit? y4, digit? mo1, digit? mo2,
        digit? d1, digit? d2, digit? h1, digit? h2, digit? mi1, digit? mi2,
        digit? se1, digit? se2 with
    | some a1, some a2, some a3, some a4, some b1, some b2, some c1, some c2,
      some e1, some e2, some f1, some f2, some g1, some g2 =>
      if sep1 = '-' ∧ sep2 = '-' ∧ sepT = 'T' ∧ sep3 = ':' ∧ sep4 = ':' ∧
          z = 'Z' then
        let t : GoTime :=
          { year := ((a1 * 10 + a2) * 10 + a3) * 10 + a4,
            month := b1 * 10 + b2, day := c1 * 10 + c2,
            hour := e1 * 10 + e2, minute := f1 * 10 + f2,
            second := g1 * 10 + g2, nanosecond := 0 }
        if validGoDateTime t then some t else none
      else none
    | _, _, _, _, _, _, _, _, _, _, _, _, _, _ => none
  | _ => none

/-- The base64url alphabet (base64.URLEncoding): A-Z, a-z, 0-9, -, _. -/
def b64char (i : Nat) : Char :=
  if i < 26 then Char.ofNat (65 + i)
  else if i < 52 then Char.ofNat (97 + (i - 26))
  else if i < 62 then Char.ofNat (48 + (i - 52))
  else if i = 62 then '-'
  else '_'

/-- The inverse alphabet lookup; none for any character outside the
alphabet (including the padding character). -/
def b64dec (c : Char) : Option Nat :=
  if 65 ≤ c.toNat ∧ c.toNat ≤ 90 then some (c.toNat - 65)
  else if 97 ≤ c.toNat ∧ c.toNat ≤ 122 then some (c.toNat - 97 + 26)
  else if 48 ≤ c.toNat ∧ c.toNat ≤ 57 then some (c.toNat - 48 + 52)
  else if c = '-' then some 62
  else if c = '_' then some 63
  else none

/-- base64.URLEncoding.EncodeToString over byte values: three bytes to
four characters, with = padding for a short final group. -/
def encodeB64 : List Nat → List Char
  | [] => []
  | [a] => [b64char (a / 4), b64char (a % 4 * 16), '=', '=']
  | [a, b] =>
    [b64char (a / 4), b64char (a % 4 * 16 + b / 16), b64char (b % 16 * 4), '=']
  | a :: b :: c :: rest =>
    b64char (a / 4) :: b64char (a % 4 * 16 + b / 16) ::
      b64char (b % 16 * 4 + c / 64) :: b64char (c % 64) :: encodeB64 rest

/-- base64.URLEncoding.DecodeString: four characters to three bytes,
padding only allowed to end the input, any foreign character an error
(none). -/
def decodeB64 : List Char → Option (List Nat)
  | [] => some []
  | c1 :: c2 :: c3 :: c4 :: rest =>
    match b64dec c1, b64dec c2 with
    | some v1, some v2 =>
      if c3 = '=' then
        if c4 = '=' ∧ rest = [] then some [v1 * 4 + v2 / 16] else none
      else
        match b64dec c3 with
        | some v3 =>
          if c4 = '=' then
            if rest = [] then
              some [v1 * 4 + v2 / 16, v2 % 16 * 16 + v3 / 4]
            else none
          else
            match b64dec c4, decodeB64 rest with
            | some v4, some tail =>
              some ((v1 * 4 + v2 / 16) :: (v2 % 16 * 16 + v3 / 4) ::
                (v3 % 4 * 64 + v4) :: tail)
            | _, _ => none
        | none => none
    | _, _ => none
  | _ => none

/-- buildCursorToken (internal/http):
base64url(fmt.Sprintf("%s|%s", createdAt.Format(time.RFC3339), id)).
Go encodes the UTF-8 bytes of the joined string; for ASCII content the
byte values are the character codes. -/
def buildCursorToken (createdAt : GoTime) (id : List Char) : List Char :=
  encodeB64 ((formatRFC3339 createdAt ++ '|' :: id).map Char.toNat)

/-- parseCursorToken (internal/http): empty token, failed base64
decoding, a split on "|" with other than two parts, or an unparseable
timestamp all yield (zero time, empty id); otherwise the decoded
timestamp and id. -/
def parseCursorToken (token : List Char) : GoTime × List Char :=
  if token = [] then (zeroGoTime, []) else
  match decodeB64 token with
  | none => (zeroGoTime, [])
  | some bytes =>
    match splitOnChar '|' (bytes.map Char.ofNat) with
    | [first, second] =>
      match parseRFC3339 first with
      | none => (zeroGoTime, [])
      | some t => (t, second)
    | _ => (zeroGoTime, [])

/-! ### Concrete data for witnesses -/

/-- A concrete registered target used by witnesses. -/
def exTarget : Target :=
  { id := "t_0", url := "https://example.com", host := "example.com",
    createdAt := "2024-01-01T00:00:00Z" }

/-- A concrete checker configuration (the default global cap 8). -/
def exCfg : CheckerConfig :=
  { maxConcurrency := 8, fetched := [exTarget] }

/-- The state reached from NewChecker by one tick and one admission. -/
def exAdmittedState : CheckerState :=
  { cancelled := false, aborted := false, pending := [],
    admitted := [exTarget],
    tasks := [⟨"example.com", .waitingHost⟩], hostSems := [] }

/-- The state reached from exAdmittedState when the task acquires its
host slot. -/
def exRunningState : CheckerState :=
  { cancelled := false, aborted := false, pending := [],
    admitted := [exTarget],
    tasks := [⟨"example.com", .running⟩], hostSems := [("example.com", 1)] }

/-! ## Theorems -/

/-! ### C1: the probe executor populates exactly one of status/error -/

/-- C1: for every target and probe outcome, performCheck returns exactly
one CheckResult in which precisely one of statusCode/error is populated:
a transport-level failure yields error set and statusCode absent, and any
completed HTTP response (whatever its status class) yields statusCode set
and error absent. -/
theorem performCheck_exactly_one (targetId : String) (outcome : ProbeOutcome)
    (checkedAt latencyMs : Nat) :
    (∃ msg, outcome = .transportError msg ∧
      (performCheck targetId outcome checkedAt latencyMs).error = some msg ∧
      (performCheck targetId outcome checkedAt latencyMs).statusCode = none) ∨
    (∃ status, outcome = .response status ∧
      (performCheck targetId outcome checkedAt latencyMs).statusCode = some status ∧
      (performCheck targetId outcome checkedAt latencyMs).error = none) := by
  cases outcome with
  | transportError msg => exact Or.inl ⟨msg, rfl, rfl, rfl⟩
  | response status => exact Or.inr ⟨status, rfl, rfl, rfl⟩

/-! ### C6: Start is not idempotent -/

/-- C6 counterexample: a second Start on an already started checker is
not the same as a single Start — it leaves two independent scheduler
loops running, not one. -/
theorem Start_not_idempotent :
    Start (Start newLifecycle) ≠ Start newLifecycle := by decide

/-- C6 amended: every call to Start unconditionally spawns one more
scheduler goroutine (wg.Add(1); go c.scheduler() with no running-state
guard), so a second Start on a Running checker adds a second independent
scheduler loop. -/
theorem Start_spawns_loop_each_call (s : LifecycleState) :
    (Start s).schedulerLoops = s.schedulerLoops + 1 := rfl

/-! ### C5: Shutdown blocks for min(outstanding work, grace) but returns
nothing -/

/-- Helper: the fold computing when wg.Wait fires is below a bound iff
every tracked duration is. -/
theorem foldr_max_le_iff (l : List Nat) (g : Nat) :
    l.foldr max 0 ≤ g ↔ ∀ d ∈ l, d ≤ g := by
  induction l with
  | nil => simp
  | cons a rest ih =>
    simp only [List.foldr_cons, max_le_iff, ih, List.mem_cons]
    constructor
    · rintro ⟨ha, hrest⟩ d (rfl | hd)
      · exact ha
      · exact hrest d hd
    · intro hall
      exact ⟨hall a (Or.inl rfl), fun d hd => hall d (Or.inr hd)⟩

/-- C5 counterexample: Shutdown does not return to its caller whether
shutdown was clean.  A clean run (all outstanding work shorter than the
grace period) and an unclean run (a task longer than the grace period)
log different messages but hand the caller the very same value, because
the Go signature func (c *Checker) Shutdown() returns nothing. -/
theorem Shutdown_return_uninformative :
    (Shutdown [1] 10).cleanLogged = true ∧
    (Shutdown [99] 10).cleanLogged = false ∧
    (Shutdown [1] 10).returned = (Shutdown [99] 10).returned := by decide

/-- C5 amended: Shutdown cancels the shared context (idempotently: the
context is cancelled afterwards whether or not it already was, and a
repeat call with no outstanding work returns immediately and cleanly),
blocks until all outstanding admitted tasks have completed or the
configured grace period elapses, whichever comes first, and reports
whether shutdown was clean only through a log message — its return type
carries nothing. -/
theorem Shutdown_blocks_min_and_logs (durations : List Nat) (grace : Nat) :
    (Shutdown durations grace).waited = min (durations.foldr max 0) grace ∧
    (Shutdown durations grace).waited ≤ grace ∧
    ((Shutdown durations grace).cleanLogged = true ↔ ∀ d ∈ durations, d ≤ grace) ∧
    (Shutdown durations grace).cancelledAfter = true ∧
    (Shutdown [] grace).waited = 0 ∧
    (Shutdown [] grace).cleanLogged = true := by
  refine ⟨rfl, Nat.min_le_right _ _, ?_, rfl, by simp [Shutdown], by simp [Shutdown]⟩
  simp only [Shutdown, decide_eq_true_eq]
  exact foldr_max_le_iff durations grace

/-- C5 witness: the amended statement at a concrete input. -/
theorem Shutdown_blocks_min_and_logs_witness :
    (Shutdown [3, 7] 10).waited = min ([3, 7].foldr max 0) 10 ∧
    (Shutdown [3, 7] 10).waited ≤ 10 ∧
    ((Shutdown [3, 7] 10).cleanLogged = true ↔ ∀ d ∈ [3, 7], d ≤ 10) ∧
    (Shutdown [3, 7] 10).cancelledAfter = true ∧
    (Shutdown ([] : List Nat) 10).waited = 0 ∧
    (Shutdown ([] : List Nat) 10).cleanLogged = true :=
  Shutdown_blocks_min_and_logs [3, 7] 10

/-! ### C7: upsert of a registered URL returns the existing row and
mutates nothing -/

/-- C7: for every canonical URL already registered, UpsertTargetByURL
returns the existing Target with created = false and leaves the stored
targets unchanged; and in every case (found or not) existing Target rows
are never mutated or deleted — every previously stored row is still
stored, unchanged, after the call. -/
theorem UpsertTargetByURL_existing_unchanged :
    (∀ rows url host freshId now t0,
      findTargetByURL rows url = some t0 →
      UpsertTargetByURL rows url host freshId now = (t0, false, rows)) ∧
    (∀ rows url host freshId now t, t ∈ rows →
      t ∈ (UpsertTargetByURL rows url host freshId now).2.2) := by
  constructor
  · intro rows url host freshId now t0 hfound
    simp [UpsertTargetByURL, hfound]
  · intro rows url host freshId now t ht
    unfold UpsertTargetByURL
    cases hfind : findTargetByURL rows url with
    | some t0 => simpa using ht
    | none => simpa using Or.inl ht

/-- C7 witness: upserting the already registered canonical URL of
exTarget returns exTarget itself, created = false, and the table is
untouched. -/
theorem UpsertTargetByURL_existing_unchanged_witness :
    UpsertTargetByURL [exTarget] "https://example.com" "example.com" "9f" "2025-01-01T00:00:00Z" =
      (exTarget, false, [exTarget]) ∧
    exTarget ∈ (UpsertTargetByURL [exTarget] "https://example.com" "example.com" "9f" "2025-01-01T00:00:00Z").2.2 :=
  ⟨UpsertTargetByURL_existing_unchanged.1 [exTarget] "https://example.com"
      "example.com" "9f" "2025-01-01T00:00:00Z" exTarget (by decide),
   UpsertTargetByURL_existing_unchanged.2 [exTarget] "https://example.com"
      "example.com" "9f" "2025-01-01T00:00:00Z" exTarget (by decide)⟩

/-! ### C8: a scheduling pass fetches the first 1000 targets in creation
order -/

/-- Helper: the ORDER BY comparison is transitive. -/
theorem targetLE_trans (a b c : Target) (hab : targetLE a b = true)
    (hbc : targetLE b c = true) : targetLE a c = true := by
  simp only [targetLE, decide_eq_true_eq] at *
  rcases hab with h1 | ⟨h1, h2⟩ <;> rcases hbc with h3 | ⟨h3, h4⟩
  · exact Or.inl (lt_trans h1 h3)
  · exact Or.inl (h3 ▸ h1)
  · exact Or.inl (h1 ▸ h3)
  · exact Or.inr ⟨h1.trans h3, le_trans h2 h4⟩

/-- Helper: the ORDER BY comparison is total. -/
theorem targetLE_total (a b : Target) :
    (targetLE a b || targetLE b a) = true := by
  simp only [targetLE, Bool.or_eq_true, decide_eq_true_eq]
  rcases lt_trichotomy a.createdAt b.createdAt with h | h | h
  · exact Or.inl (Or.inl h)
  · rcases le_total a.id b.id with h2 | h2
    · exact Or.inl (Or.inr ⟨h, h2⟩)
    · exact Or.inr (Or.inr ⟨h.symm, h2⟩)
  · exact Or.inr (Or.inl h)

/-- Helper: with no host filter and a zero cursor, GetTargets is the
sorted table truncated at the limit. -/
theorem scheduledTargets_eq (rows : List Target) :
    scheduledTargets rows = (rows.mergeSort targetLE).take 1000 := by
  simp [scheduledTargets, GetTargets]

/-- C8: every scheduling pass fetches at most 1000 targets — exactly
min(1000, table size) many — and they are the first 1000 in creation
order (ordered by created_at then id): the fetched list is sorted, the
table splits (as a multiset) into the fetched rows plus the skipped rows,
and every skipped row comes at or after every fetched row in creation
order; when more than 1000 targets exist the remainder is exactly that
nonempty skipped part. -/
theorem scheduledTargets_first_thousand (rows : List Target) :
    ∃ skipped,
      (scheduledTargets rows).length = min 1000 rows.length ∧
      List.Pairwise (fun a b => targetLE a b = true) (scheduledTargets rows) ∧
      (scheduledTargets rows ++ skipped).Perm rows ∧
      (∀ a ∈ scheduledTargets rows, ∀ b ∈ skipped, targetLE a b = true) ∧
      (1000 < rows.length → skipped ≠ []) := by
  refine ⟨(rows.mergeSort targetLE).drop 1000, ?_, ?_, ?_, ?_, ?_⟩
  · rw [scheduledTargets_eq, List.length_take,
      (rows.mergeSort_perm targetLE).length_eq]
  · rw [scheduledTargets_eq]
    exact List.Pairwise.sublist (List.take_sublist 1000 _)
      (List.sorted_mergeSort targetLE_trans targetLE_total rows)
  · rw [scheduledTargets_eq, List.take_append_drop]
    exact rows.mergeSort_perm targetLE
  · rw [scheduledTargets_eq]
    have hs := List.sorted_mergeSort targetLE_trans targetLE_total rows
    rw [← List.take_append_drop 1000 (rows.mergeSort targetLE),
      List.pairwise_append] at hs
    exact hs.2.2
  · intro hlong hnil
    have hlen := congrArg List.length hnil
    rw [List.length_drop, (rows.mergeSort_perm targetLE).length_eq,
      List.length_nil] at hlen
    omega

/-- C8 witness: the statement at a concrete one-row table. -/
theorem scheduledTargets_first_thousand_witness :
    ∃ skipped,
      (scheduledTargets [exTarget]).length = min 1000 [exTarget].length ∧
      List.Pairwise (fun a b => targetLE a b = true) (scheduledTargets [exTarget]) ∧
      (scheduledTargets [exTarget] ++ skipped).Perm [exTarget] ∧
      (∀ a ∈ scheduledTargets [exTarget], ∀ b ∈ skipped, targetLE a b = true) ∧
      (1000 < [exTarget].length → skipped ≠ []) :=
  scheduledTargets_first_thousand [exTarget]

/-! ### C2/C3/C4: limiter invariants of the checker -/

/-- Helper: spawning one goroutine adds one global-slot holder. -/
theorem liveCount_append_one (ts : List ProbeTask) (tk : ProbeTask) :
    liveCount (ts ++ [tk]) =
      liveCount ts + (if (tk.phase != .finished) = true then 1 else 0) := by
  simp [liveCount, List.countP_append, List.countP_cons]

/-- Helper: replacing a live task by anything cannot increase the number
of global-slot holders. -/
theorem liveCount_set_le (ts : List ProbeTask) (i : Nat) (tk tk' : ProbeTask)
    (h : ts[i]? = some tk) (hlive : (tk.phase != .finished) = true) :
    liveCount (ts.set i tk') ≤ liveCount ts := by
  have hi : i < ts.length := by
    by_contra hge
    rw [List.getElem?_eq_none (le_of_not_lt hge)] at h
    cases h
  have hval : ts[i] = tk := by
    rw [List.getElem?_eq_getElem hi] at h
    exact Option.some.inj h
  have hpos : 0 < ts.countP (fun t => t.phase != TaskPhase.finished) :=
    List.countP_pos_iff.mpr ⟨tk, hval ▸ List.getElem_mem hi, hlive⟩
  unfold liveCount
  rw [List.countP_set _ _ _ _ hi, hval, if_pos hlive]
  split <;> omega

/-- Helper: writing back the element already stored at an index is the
identity. -/
theorem set_same (l : List α) (i : Nat) (a : α) (h : l[i]? = some a) :
    l.set i a = l := by
  induction l generalizing i with
  | nil => cases h
  | cons x xs ih =>
    cases i with
    | zero =>
      simp only [List.getElem?_cons_zero, Option.some.injEq] at h
      simp [h]
    | succ n =>
      simp only [List.getElem?_cons_succ] at h
      simp [ih n h]

/-- Helper: a phase change of task i leaves the host of every task (in
particular the set of hosts ever referenced) unchanged. -/
theorem map_host_set (ts : List ProbeTask) (i : Nat) (tk : ProbeTask)
    (p : TaskPhase) (h : ts[i]? = some tk) :
    (ts.set i ({ tk with phase := p })).map ProbeTask.host =
      ts.map ProbeTask.host := by
  rw [List.map_set]
  refine set_same _ _ _ ?_
  rw [List.getElem?_map, h]
  rfl

/-- Helper: lazily creating an entry changes no held count. -/
theorem hostHeld_ensureHost (sems : List (String × Nat)) (h h' : String) :
    hostHeld (ensureHost sems h) h' = hostHeld sems h' := by
  induction sems with
  | nil =>
    by_cases he : h' = h
    · subst he
      simp [ensureHost, hostHeld, List.lookup]
    · have hb : (h' == h) = false := beq_eq_false_iff_ne.mpr he
      simp [ensureHost, hostHeld, List.lookup, hb]
  | cons e rest ih =>
    obtain ⟨k, n⟩ := e
    by_cases hk : k = h
    · simp [ensureHost, hk]
    · by_cases hk' : h' = k
      · subst hk'
        simp [ensureHost, hk, hostHeld, List.lookup]
      · have hb : (h' == k) = false := beq_eq_false_iff_ne.mpr hk'
        simp only [ensureHost, if_neg hk]
        simpa [hostHeld, List.lookup, hb] using ih

/-- Helper: after lazy creation the entry for the host exists. -/
theorem lookup_ensureHost_self (sems : List (String × Nat)) (h : String) :
    (((ensureHost sems h).lookup h).isSome) = true := by
  induction sems with
  | nil => simp [ensureHost, List.lookup]
  | cons e rest ih =>
    obtain ⟨k, n⟩ := e
    by_cases hk : k = h
    · subst hk
      simp [ensureHost, List.lookup]
    · have hb : (h == k) = false := beq_eq_false_iff_ne.mpr (fun he => hk he.symm)
      simp only [ensureHost, if_neg hk]
      simpa [List.lookup, hb] using ih

/-- Helper: lazy creation only ever adds the referenced key. -/
theorem lookup_ensureHost_isSome (sems : List (String × Nat)) (h h' : String)
    (hs : (((ensureHost sems h).lookup h').isSome) = true) :
    ((sems.lookup h').isSome) = true ∨ h' = h := by
  induction sems with
  | nil =>
    by_cases he : h' = h
    · exact Or.inr he
    · have hb : (h' == h) = false := beq_eq_false_iff_ne.mpr he
      simp [ensureHost, List.lookup, hb] at hs
  | cons e rest ih =>
    obtain ⟨k, n⟩ := e
    by_cases hk : k = h
    · subst hk
      simp only [ensureHost, if_pos rfl] at hs
      exact Or.inl hs
    · by_cases hk' : h' = k
      · subst hk'
        simp [List.lookup]
      · have hb : (h' == k) = false := beq_eq_false_iff_ne.mpr hk'
        simp only [ensureHost, if_neg hk, List.lookup, hb] at hs
        rcases ih hs with hmem | he
        · exact Or.inl (by simpa [List.lookup, hb] using hmem)
        · exact Or.inr he

/-- Helper: ensure does not remove existing entries. -/
theorem lookup_ensureHost_mono (sems : List (String × Nat)) (h h' : String)
    (hs : ((sems.lookup h').isSome) = true) :
    (((ensureHost sems h).lookup h').isSome) = true := by
  induction sems with
  | nil => cases hs
  | cons e rest ih =>
    obtain ⟨k, n⟩ := e
    by_cases hk : k = h
    · simpa [ensureHost, hk] using hs
    · by_cases hk' : h' = k
      · subst hk'
        simp [ensureHost, if_neg hk, List.lookup]
      · have hb : (h' == k) = false := beq_eq_false_iff_ne.mpr hk'
        simp only [ensureHost, if_neg hk, List.lookup, hb] at hs ⊢
        exact ih hs

/-- Helper: a successful semaphore send bumps exactly the sent channel. -/
theorem hostHeld_incrHost_self (sems : List (String × Nat)) (h : String)
    (hk : ((sems.lookup h).isSome) = true) :
    hostHeld (incrHost sems h) h = hostHeld sems h + 1 := by
  induction sems with
  | nil => cases hk
  | cons e rest ih =>
    obtain ⟨k, n⟩ := e
    by_cases hkh : k = h
    · subst hkh
      simp [incrHost, hostHeld, List.lookup]
    · have hb : (h == k) = false := beq_eq_false_iff_ne.mpr (fun he => hkh he.symm)
      simp only [List.lookup, hb] at hk
      simp only [incrHost, if_neg hkh, hostHeld, List.lookup, hb]
      exact ih hk

/-- Helper: a semaphore send leaves other channels alone. -/
theorem hostHeld_incrHost_ne (sems : List (String × Nat)) (h h' : String)
    (hne : h' ≠ h) :
    hostHeld (incrHost sems h) h' = hostHeld sems h' := by
  induction sems with
  | nil => simp [incrHost]
  | cons e rest ih =>
    obtain ⟨k, n⟩ := e
    by_cases hk : k = h
    · subst hk
      have hb : (h' == k) = false := beq_eq_false_iff_ne.mpr hne
      simp [incrHost, hostHeld, List.lookup, hb]
    · by_cases hk' : h' = k
      · subst hk'
        simp [incrHost, if_neg hk, hostHeld, List.lookup]
      · have hb : (h' == k) = false := beq_eq_false_iff_ne.mpr hk'
        simp only [incrHost, if_neg hk, hostHeld, List.lookup, hb]
        exact ih

/-- Helper: a semaphore receive never raises any held count. -/
theorem hostHeld_decrHost_le (sems : List (String × Nat)) (h h' : String) :
    hostHeld (decrHost sems h) h' ≤ hostHeld sems h' := by
  induction sems with
  | nil => simp [decrHost]
  | cons e rest ih =>
    obtain ⟨k, n⟩ := e
    by_cases hk : k = h
    · subst hk
      by_cases hk' : h' = k
      · subst hk'
        simp only [decrHost, if_pos rfl, hostHeld, List.lookup, beq_self_eq_true,
          Option.getD_some]
        omega
      · have hb : (h' == k) = false := beq_eq_false_iff_ne.mpr hk'
        simp [decrHost, hostHeld, List.lookup, hb]
    · by_cases hk' : h' = k
      · subst hk'
        simp [decrHost, if_neg hk, hostHeld, List.lookup]
      · have hb : (h' == k) = false := beq_eq_false_iff_ne.mpr hk'
        simp only [decrHost, if_neg hk, hostHeld, List.lookup, hb]
        exact ih

/-- Helper: sends do not create or remove map entries. -/
theorem lookup_incrHost_isSome (sems : List (String × Nat)) (h h' : String) :
    (((incrHost sems h).lookup h').isSome) = ((sems.lookup h').isSome) := by
  induction sems with
  | nil => simp [incrHost]
  | cons e rest ih =>
    obtain ⟨k, n⟩ := e
    by_cases hk : k = h
    · subst hk
      by_cases hk' : h' = k
      · subst hk'
        simp [incrHost, List.lookup]
      · have hb : (h' == k) = false := beq_eq_false_iff_ne.mpr hk'
        simp [incrHost, List.lookup, hb]
    · by_cases hk' : h' = k
      · subst hk'
        simp [incrHost, if_neg hk, List.lookup]
      · have hb : (h' == k) = false := beq_eq_false_iff_ne.mpr hk'
        simp only [incrHost, if_neg hk, List.lookup, hb]
        exact ih

/-- Helper: receives do not create or remove map entries. -/
theorem lookup_decrHost_isSome (sems : List (String × Nat)) (h h' : String) :
    (((decrHost sems h).lookup h').isSome) = ((sems.lookup h').isSome) := by
  induction sems with
  | nil => simp [decrHost]
  | cons e rest ih =>
    obtain ⟨k, n⟩ := e
    by_cases hk : k = h
    · subst hk
      by_cases hk' : h' = k
      · subst hk'
        simp [decrHost, List.lookup]
      · have hb : (h' == k) = false := beq_eq_false_iff_ne.mpr hk'
        simp [decrHost, List.lookup, hb]
    · by_cases hk' : h' = k
      · subst hk'
        simp [decrHost, if_neg hk, List.lookup]
      · have hb : (h' == k) = false := beq_eq_false_iff_ne.mpr hk'
        simp only [decrHost, if_neg hk, List.lookup, hb]
        exact ih

/-- C2: for every configured global cap, in no reachable state of the
checker do more than maxConcurrency probe tasks hold a global slot
simultaneously.  In the model a task holds its global slot from the
moment scheduleChecks sends on c.workers (just before go checkTarget)
until its deferred release runs when all its work — probing, result
write, or the cancelled-acquisition early return — is finished, so
liveCount is exactly the number of global-slot holders. -/
theorem checker_global_cap (cfg : CheckerConfig) (s : CheckerState)
    (hr : CheckerReachable cfg s) :
    liveCount s.tasks ≤ cfg.maxConcurrency := by
  induction hr with
  | init => simp [initialCheckerState, liveCount]
  | step hprev hstep ih =>
    rename_i s s'
    cases hstep with
    | cancel => exact ih
    | tick h1 h2 h3 => exact ih
    | admitOne t rest h1 h2 h3 =>
      show liveCount (s.tasks ++ [⟨t.host, .waitingHost⟩]) ≤ cfg.maxConcurrency
      rw [liveCount_append_one,
        show (if ((⟨t.host, TaskPhase.waitingHost⟩ : ProbeTask).phase
            != TaskPhase.finished) = true then 1 else 0) = 1 from rfl]
      omega
    | abortPass h1 h2 h3 => exact ih
    | hostAcquire i tk hget hph hcap =>
      exact le_trans (liveCount_set_le s.tasks i tk _ hget (by rw [hph]; rfl)) ih
    | hostAcquireCancelled i tk hget hph hc =>
      exact le_trans (liveCount_set_le s.tasks i tk _ hget (by rw [hph]; rfl)) ih
    | finish i tk hget hph =>
      exact le_trans (liveCount_set_le s.tasks i tk _ hget (by rw [hph]; rfl)) ih

/-- C2 witness: the invariant at a concrete reachable state holding one
global slot under the default cap 8. -/
theorem checker_global_cap_witness :
    liveCount exAdmittedState.tasks ≤ exCfg.maxConcurrency :=
  checker_global_cap exCfg exAdmittedState
    (CheckerReachable.step
      (CheckerReachable.step CheckerReachable.init
        (CheckerStep.tick initialCheckerState rfl rfl rfl))
      (CheckerStep.admitOne _ exTarget [] rfl rfl (by decide)))

/-- Helper: a task occurring at an index occurs in the list. -/
theorem mem_of_getElem_some (ts : List ProbeTask) (i : Nat) (tk : ProbeTask)
    (hget : ts[i]? = some tk) : tk ∈ ts := by
  have hi : i < ts.length := by
    by_contra hge
    rw [List.getElem?_eq_none (le_of_not_lt hge)] at hget
    cases hget
  rw [List.getElem?_eq_getElem hi] at hget
  exact (Option.some.inj hget) ▸ List.getElem_mem hi

/-- Helper: the per-host invariant, by induction over reachability: every
host semaphore has at most 2 held slots, and every existing map entry
belongs to a host some spawned task referenced. -/
theorem hostInvariant_reachable (cfg : CheckerConfig) (s : CheckerState)
    (hr : CheckerReachable cfg s) (h : String) :
    hostHeld s.hostSems h ≤ 2 ∧
      (((s.hostSems.lookup h).isSome) = true →
        h ∈ s.tasks.map ProbeTask.host) := by
  induction hr with
  | init =>
    constructor
    · simp [initialCheckerState, hostHeld, List.lookup]
    · intro hs
      simp [initialCheckerState, List.lookup] at hs
  | step hprev hstep ih =>
    rename_i s s'
    cases hstep with
    | cancel => exact ih
    | tick h1 h2 h3 => exact ih
    | admitOne t rest h1 h2 h3 =>
      refine ⟨ih.1, fun hs => ?_⟩
      show h ∈ (s.tasks ++ [(⟨t.host, .waitingHost⟩ : ProbeTask)]).map ProbeTask.host
      rw [List.map_append]
      exact List.mem_append_left _ (ih.2 hs)
    | abortPass h1 h2 h3 => exact ih
    | hostAcquire i tk hget hph hcap =>
      constructor
      · show hostHeld (incrHost (ensureHost s.hostSems tk.host) tk.host) h ≤ 2
        by_cases he : h = tk.host
        · subst he
          rw [hostHeld_incrHost_self _ _ (lookup_ensureHost_self _ _),
            hostHeld_ensureHost]
          omega
        · rw [hostHeld_incrHost_ne _ _ _ he, hostHeld_ensureHost]
          exact ih.1
      · intro hs
        show h ∈ (s.tasks.set i ({ tk with phase := .running })).map ProbeTask.host
        rw [map_host_set s.tasks i tk _ hget]
        have hs' : (((incrHost (ensureHost s.hostSems tk.host) tk.host).lookup h).isSome) = true := hs
        rw [lookup_incrHost_isSome] at hs'
        rcases lookup_ensureHost_isSome _ _ _ hs' with hmem | he
        · exact ih.2 hmem
        · subst he
          exact List.mem_map_of_mem ProbeTask.host (mem_of_getElem_some _ _ _ hget)
    | hostAcquireCancelled i tk hget hph hc =>
      constructor
      · show hostHeld (ensureHost s.hostSems tk.host) h ≤ 2
        rw [hostHeld_ensureHost]
        exact ih.1
      · intro hs
        show h ∈ (s.tasks.set i ({ tk with phase := .finished })).map ProbeTask.host
        rw [map_host_set s.tasks i tk _ hget]
        have hs' : (((ensureHost s.hostSems tk.host).lookup h).isSome) = true := hs
        rcases lookup_ensureHost_isSome _ _ _ hs' with hmem | he
        · exact ih.2 hmem
        · subst he
          exact List.mem_map_of_mem ProbeTask.host (mem_of_getElem_some _ _ _ hget)
    | finish i tk hget hph =>
      constructor
      · show hostHeld (decrHost s.hostSems tk.host) h ≤ 2
        exact le_trans (hostHeld_decrHost_le _ _ _) ih.1
      · intro hs
        show h ∈ (s.tasks.set i ({ tk with phase := .finished })).map ProbeTask.host
        rw [map_host_set s.tasks i tk _ hget]
        have hs' : (((decrHost s.hostSems tk.host).lookup h).isSome) = true := hs
        rw [lookup_decrHost_isSome] at hs'
        exact ih.2 hs'

/-- Helper: no step of the checker ever removes a host limiter entry. -/
theorem hostDomain_step_mono (cfg : CheckerConfig) (s s' : CheckerState)
    (hstep : CheckerStep cfg s s') (h : String)
    (hs : ((s.hostSems.lookup h).isSome) = true) :
    ((s'.hostSems.lookup h).isSome) = true := by
  cases hstep with
  | cancel => exact hs
  | tick h1 h2 h3 => exact hs
  | admitOne t rest h1 h2 h3 => exact hs
  | abortPass h1 h2 h3 => exact hs
  | hostAcquire i tk hget hph hcap =>
    show (((incrHost (ensureHost s.hostSems tk.host) tk.host).lookup h).isSome) = true
    rw [lookup_incrHost_isSome]
    exact lookup_ensureHost_mono _ _ _ hs
  | hostAcquireCancelled i tk hget hph hc =>
    exact lookup_ensureHost_mono _ _ _ hs
  | finish i tk hget hph =>
    show (((decrHost s.hostSems tk.host).lookup h).isSome) = true
    rw [lookup_decrHost_isSome]
    exact hs

/-- C3: for every host, in no reachable state do more than 2 concurrent
probe tasks hold that host's slot (the per-host cap is the fixed
constant 2 from acquireHostSemaphore, independent of the global cap);
the limiter entry for a host exists only once a task referencing that
host has been spawned (lazy creation on first reference), and no step of
the checker ever removes an entry. -/
theorem checker_host_cap :
    (∀ cfg s, CheckerReachable cfg s → ∀ h,
      hostHeld s.hostSems h ≤ 2 ∧
        (((s.hostSems.lookup h).isSome) = true →
          h ∈ s.tasks.map ProbeTask.host)) ∧
    (∀ cfg s s', CheckerStep cfg s s' → ∀ h,
      ((s.hostSems.lookup h).isSome) = true →
        ((s'.hostSems.lookup h).isSome) = true) :=
  ⟨fun cfg s hr h => hostInvariant_reachable cfg s hr h,
   fun cfg s s' hstep h hs => hostDomain_step_mono cfg s s' hstep h hs⟩

/-- C3 witness: the per-host bound and the lazily created entry at a
concrete reachable state in which the example.com semaphore holds one
slot. -/
theorem checker_host_cap_witness :
    hostHeld exRunningState.hostSems "example.com" ≤ 2 ∧
    "example.com" ∈ exRunningState.tasks.map ProbeTask.host := by
  have hreach : CheckerReachable exCfg exRunningState :=
    CheckerReachable.step
      (CheckerReachable.step
        (CheckerReachable.step CheckerReachable.init
          (CheckerStep.tick initialCheckerState rfl rfl rfl))
        (CheckerStep.admitOne _ exTarget [] rfl rfl (by decide)))
      (CheckerStep.hostAcquire _ 0 ⟨"example.com", .waitingHost⟩ rfl rfl (by decide))
  exact ⟨(checker_host_cap.1 exCfg exRunningState hreach "example.com").1,
    (checker_host_cap.1 exCfg exRunningState hreach "example.com").2 (by decide)⟩

/-- C4: during a scheduling pass a target is never silently dropped
because the global limiter is saturated: in every reachable state the
fetched list splits exactly into the targets already admitted (each got
a global slot and a spawned probe task) followed by the targets the pass
is still blocked on, and a pass can only have been cut short (aborted)
by the cancellation signal.  The step relation has no transition that
discards a pending target: only admit (a freed slot) removes one, and
only abortPass (cancellation observed) ends the pass early. -/
theorem scheduleChecks_no_silent_drop (cfg : CheckerConfig) (s : CheckerState)
    (hr : CheckerReachable cfg s) :
    (s.admitted ++ s.pending = cfg.fetched ∨
      (s.admitted = [] ∧ s.pending = [])) ∧
    (s.aborted = true → s.cancelled = true) := by
  induction hr with
  | init => exact ⟨Or.inr ⟨rfl, rfl⟩, fun hab => by cases hab⟩
  | step hprev hstep ih =>
    rename_i s s'
    cases hstep with
    | cancel => exact ⟨ih.1, fun _ => rfl⟩
    | tick h1 h2 h3 =>
      exact ⟨Or.inl (List.nil_append _), fun hab => ih.2 hab⟩
    | admitOne t rest h1 h2 h3 =>
      refine ⟨?_, ih.2⟩
      rcases ih.1 with hsplit | ⟨hadm, hpend⟩
      · left
        rw [h1] at hsplit
        show s.admitted ++ [t] ++ rest = cfg.fetched
        rw [List.append_assoc]
        exact hsplit
      · rw [hpend] at h1
        cases h1
    | abortPass h1 h2 h3 => exact ⟨ih.1, fun _ => h1⟩
    | hostAcquire i tk hget hph hcap => exact ih
    | hostAcquireCancelled i tk hget hph hc => exact ih
    | finish i tk hget hph => exact ih

/-- C4 witness: the pass accounting at a concrete reachable mid-pass
state. -/
theorem scheduleChecks_no_silent_drop_witness :
    (exAdmittedState.admitted ++ exAdmittedState.pending = exCfg.fetched ∨
      (exAdmittedState.admitted = [] ∧ exAdmittedState.pending = [])) ∧
    (exAdmittedState.aborted = true → exAdmittedState.cancelled = true) :=
  scheduleChecks_no_silent_drop exCfg exAdmittedState
    (CheckerReachable.step
      (CheckerReachable.step CheckerReachable.init
        (CheckerStep.tick initialCheckerState rfl rfl rfl))
      (CheckerStep.admitOne _ exTarget [] rfl rfl (by decide)))

/-! ### C10: cursor tokens round-trip -/

/-- Helper: decoding inverts the alphabet on every 6-bit value. -/
theorem b64dec_b64char : ∀ i : Fin 64, b64dec (b64char i.val) = some i.val := by
  decide

/-- Helper: decoding inverts the alphabet, stated over Nat. -/
theorem b64dec_b64char_of_lt (i : Nat) (h : i < 64) :
    b64dec (b64char i) = some i :=
  b64dec_b64char ⟨i, h⟩

/-- Helper: no alphabet character is the padding character. -/
theorem b64char_ne_pad : ∀ i : Fin 64, b64char i.val ≠ '=' := by
  decide

/-- Helper: no alphabet character is the padding character, over Nat. -/
theorem b64char_ne_pad_of_lt (i : Nat) (h : i < 64) : b64char i ≠ '=' :=
  b64char_ne_pad ⟨i, h⟩

/-- Helper: base64url decoding inverts encoding on byte values. -/
theorem decode_encode : ∀ (bytes : List Nat), (∀ x ∈ bytes, x < 256) →
    decodeB64 (encodeB64 bytes) = some bytes
  | [], _ => rfl
  | [a], hb => by
    have ha : a < 256 := hb a (by simp)
    have h1 := b64dec_b64char_of_lt (a / 4) (by omega)
    have h2 := b64dec_b64char_of_lt (a % 4 * 16) (by omega)
    simp only [encodeB64, decodeB64, h1, h2]
    simp only [and_self, if_true, eq_self_iff_true, Option.some.injEq,
      List.cons.injEq, and_true, if_pos]
    omega
  | [a, b], hb => by
    have ha : a < 256 := hb a (by simp)
    have hbb : b < 256 := hb b (by simp)
    have h1 := b64dec_b64char_of_lt (a / 4) (by omega)
    have h2 := b64dec_b64char_of_lt (a % 4 * 16 + b / 16) (by omega)
    have h3 := b64dec_b64char_of_lt (b % 16 * 4) (by omega)
    have hne := b64char_ne_pad_of_lt (b % 16 * 4) (by omega)
    simp only [encodeB64, decodeB64, h1, h2, h3, if_neg hne]
    simp only [eq_self_iff_true, if_true, Option.some.injEq,
      List.cons.injEq, and_true, if_pos]
    constructor <;> omega
  | a :: b :: c :: rest, hb => by
    have ha : a < 256 := hb a (by simp)
    have hbb : b < 256 := hb b (by simp)
    have hc : c < 256 := hb c (by simp)
    have ih := decode_encode rest
      (fun x hx => hb x (by simp only [List.mem_cons] at hx ⊢; tauto))
    have h1 := b64dec_b64char_of_lt (a / 4) (by omega)
    have h2 := b64dec_b64char_of_lt (a % 4 * 16 + b / 16) (by omega)
    have h3 := b64dec_b64char_of_lt (b % 16 * 4 + c / 64) (by omega)
    have h4 := b64dec_b64char_of_lt (c % 64) (by omega)
    have hne3 := b64char_ne_pad_of_lt (b % 16 * 4 + c / 64) (by omega)
    have hne4 := b64char_ne_pad_of_lt (c % 64) (by omega)
    match rest with
    | [] =>
      simp only [encodeB64, decodeB64, h1, h2, h3, h4, if_neg hne3,
        if_neg hne4, ih, Option.some.injEq, List.cons.injEq, and_true]
      refine ⟨by omega, by omega, by omega⟩
    | r :: rs =>
      simp only [encodeB64, decodeB64, h1, h2, h3, h4, if_neg hne3,
        if_neg hne4] at ih ⊢
      rw [ih]
      simp only [Option.some.injEq, List.cons.injEq, and_true]
      refine ⟨by omega, by omega, by omega⟩

/-- Helper: encoding a nonempty byte list yields a nonempty token. -/
theorem encodeB64_ne_nil (bytes : List Nat) (h : bytes ≠ []) :
    encodeB64 bytes ≠ [] := by
  match bytes with
  | [] => exact absurd rfl h
  | [a] => simp [encodeB64]
  | [a, b] => simp [encodeB64]
  | a :: b :: c :: rest => simp [encodeB64]

/-- Helper: splitting a separator-free string yields one part. -/
theorem splitOnChar_no_sep (sep : Char) (l : List Char) (h : sep ∉ l) :
    splitOnChar sep l = [l] := by
  induction l with
  | nil => rfl
  | cons c rest ih =>
    have hc : ¬ c = sep := fun he => h (he ▸ List.mem_cons_self c rest)
    have hrest : sep ∉ rest := fun hm => h (List.mem_cons_of_mem c hm)
    simp only [splitOnChar, if_neg hc, ih hrest]

/-- Helper: splitting at the unique separator yields the part before it
and the splits of the part after it. -/
theorem splitOnChar_app (sep : Char) (a : List Char) (ha : sep ∉ a)
    (b : List Char) :
    splitOnChar sep (a ++ sep :: b) = a :: splitOnChar sep b := by
  induction a with
  | nil => simp [splitOnChar]
  | cons c rest ih =>
    have hc : ¬ c = sep := fun he => ha (he ▸ List.mem_cons_self c rest)
    have hrest : sep ∉ rest := fun hm => ha (List.mem_cons_of_mem c hm)
    simp only [List.cons_append, splitOnChar, List.append_eq, if_neg hc,
      ih hrest]

/-- Helper: a digit character reads back as its digit. -/
theorem digit?_digitChar (d : Nat) (h : d < 10) :
    digit? (digitChar d) = some d := by
  interval_cases d <;> decide

/-- Helper: digit? applied to remainders, the shape the padded fields
use. -/
theorem digit?_digitChar_mod (x : Nat) :
    digit? (digitChar (x % 10)) = some (x % 10) :=
  digit?_digitChar _ (Nat.mod_lt _ (by omega))

/-- Helper: digit characters are not the separator and are ASCII. -/
theorem digitChar_props (d : Nat) (h : d < 10) :
    digitChar d ≠ '|' ∧ (digitChar d).toNat < 256 := by
  interval_cases d <;> exact ⟨by decide, by decide⟩

/-- Helper: every character of a rendered timestamp is ASCII and none is
the "|" separator. -/
theorem formatRFC3339_chars (t : GoTime) (c : Char)
    (hc : c ∈ formatRFC3339 t) : c ≠ '|' ∧ c.toNat < 256 := by
  simp only [formatRFC3339, pad4, pad2, List.cons_append, List.nil_append,
    List.mem_cons, List.not_mem_nil, or_false] at hc
  rcases hc with rfl|rfl|rfl|rfl|rfl|rfl|rfl|rfl|rfl|rfl|rfl|rfl|rfl|rfl|rfl|rfl|rfl|rfl|rfl|rfl
  all_goals first
    | exact digitChar_props _ (Nat.mod_lt _ (by omega))
    | exact ⟨by decide, by decide⟩

/-- Helper: decoding bytes back to characters inverts taking character
codes. -/
theorem map_ofNat_toNat (l : List Char) :
    (l.map Char.toNat).map Char.ofNat = l := by
  induction l with
  | nil => rfl
  | cons c rest ih => simp [Char.ofNat_toNat, ih]

/-- Helper: a rendered timestamp parses back to the instant it rendered,
for in-range whole-second UTC times. -/
theorem parseRFC3339_formatRFC3339 (t : GoTime) (hv : validGoDateTime t)
    (hns : t.nanosecond = 0) (hy : t.year ≤ 9999) :
    parseRFC3339 (formatRFC3339 t) = some t := by
  obtain ⟨hm1, hm2, hd1, hd2, hh, hmi, hs⟩ := hv
  have hdays : daysIn t.month t.year ≤ 31 := by
    unfold daysIn
    split
    · split <;> omega
    · split <;> omega
  have hyear : ((t.year / 1000 % 10 * 10 + t.year / 100 % 10) * 10 +
      t.year / 10 % 10) * 10 + t.year % 10 = t.year := by omega
  have hmonth : t.month / 10 % 10 * 10 + t.month % 10 = t.month := by omega
  have hday : t.day / 10 % 10 * 10 + t.day % 10 = t.day := by omega
  have hhour : t.hour / 10 % 10 * 10 + t.hour % 10 = t.hour := by omega
  have hminute : t.minute / 10 % 10 * 10 + t.minute % 10 = t.minute := by
    omega
  have hsecond : t.second / 10 % 10 * 10 + t.second % 10 = t.second := by
    omega
  simp only [formatRFC3339, pad4, pad2, List.cons_append, List.nil_append,
    parseRFC3339, digit?_digitChar_mod, hyear, hmonth, hday, hhour, hminute,
    hsecond, and_self, if_true, eq_self_iff_true, if_pos]
  rw [if_pos (show validGoDateTime
      ⟨t.year, t.month, t.day, t.hour, t.minute, t.second, 0⟩ from
      ⟨hm1, hm2, hd1, hd2, hh, hmi, hs⟩)]
  rw [← hns]

/-- C10 counterexample: the claim quantifies over every target id, but an
id containing the separator "|" does not round-trip: the decoded payload
splits into three parts, so parseCursorToken returns the zero time and
empty id instead of the encoded pair. -/
theorem cursor_roundtrip_counterexample :
    parseCursorToken
        (buildCursorToken ⟨2024, 1, 2, 3, 4, 5, 0⟩ ['a', '|', 'b']) =
      (zeroGoTime, []) ∧
    (zeroGoTime, ([] : List Char)) ≠
      ((⟨2024, 1, 2, 3, 4, 5, 0⟩ : GoTime), ['a', '|', 'b']) := by
  constructor
  · decide
  · decide

/-- C10 (amended): cursor tokens round-trip for every creation time that
is a valid civil UTC instant with whole seconds and at most four year
digits, and every ASCII id not containing the separator "|":
parseCursorToken (buildCursorToken t id) = (t, id).  Moreover
parseCursorToken never fails: every token either yields the zero time
and empty id (empty token, bad base64, a "|"-split with other than two
parts, or an unparseable timestamp) or is the successful decoding of a
well-formed token. -/
theorem cursor_token_roundtrip :
    (∀ (t : GoTime) (id : List Char), validGoDateTime t →
      t.nanosecond = 0 → t.year ≤ 9999 → '|' ∉ id →
      (∀ c ∈ id, c.toNat < 256) →
      parseCursorToken (buildCursorToken t id) = (t, id)) ∧
    (∀ token, parseCursorToken token = (zeroGoTime, []) ∨
      ∃ bytes first second tt,
        decodeB64 token = some bytes ∧
        splitOnChar '|' (bytes.map Char.ofNat) = [first, second] ∧
        parseRFC3339 first = some tt ∧
        parseCursorToken token = (tt, second)) := by
  constructor
  · intro t id hv hns hy hid hascii
    have hfmt_ne : '|' ∉ formatRFC3339 t :=
      fun hmem => (formatRFC3339_chars t _ hmem).1 rfl
    have hbytes : ∀ x ∈ (formatRFC3339 t ++ '|' :: id).map Char.toNat,
        x < 256 := by
      intro x hx
      rcases List.mem_map.mp hx with ⟨c, hc, rfl⟩
      rcases List.mem_append.mp hc with hc | hc
      · exact (formatRFC3339_chars t c hc).2
      · rcases List.mem_cons.mp hc with rfl | hc
        · decide
        · exact hascii c hc
    have htok : encodeB64 ((formatRFC3339 t ++ '|' :: id).map Char.toNat) ≠ [] := by
      refine encodeB64_ne_nil _ ?_
      simp [formatRFC3339, pad4, pad2]
    unfold buildCursorToken
    simp only [parseCursorToken, if_neg htok, decode_encode _ hbytes,
      map_ofNat_toNat, splitOnChar_app '|' (formatRFC3339 t) hfmt_ne,
      splitOnChar_no_sep '|' id hid,
      parseRFC3339_formatRFC3339 t hv hns hy]
  · intro token
    by_cases he : token = []
    · left
      simp [parseCursorToken, he]
    · cases hdec : decodeB64 token with
      | none =>
        left
        simp [parseCursorToken, if_neg he, hdec]
      | some bytes =>
        rcases hsp : splitOnChar '|' (bytes.map Char.ofNat) with
          _ | ⟨first, _ | ⟨second, _ | _⟩⟩
        · left
          simp [parseCursorToken, if_neg he, hdec, hsp]
        · left
          simp [parseCursorToken, if_neg he, hdec, hsp]
        · cases hpt : parseRFC3339 first with
          | none =>
            left
            simp [parseCursorToken, if_neg he, hdec, hsp, hpt]
          | some tt =>
            right
            exact ⟨bytes, first, second, tt, rfl, hsp, hpt,
              by simp [parseCursorToken, if_neg he, hdec, hsp, hpt]⟩
        · left
          simp [parseCursorToken, if_neg he, hdec, hsp]

/-- C10 witness: the round-trip at a concrete timestamp and id. -/
theorem cursor_token_roundtrip_witness :
    parseCursorToken
        (buildCursorToken ⟨2024, 1, 2, 3, 4, 5, 0⟩ ['a', 'b']) =
      ((⟨2024, 1, 2, 3, 4, 5, 0⟩ : GoTime), ['a', 'b']) :=
  cursor_token_roundtrip.1 ⟨2024, 1, 2, 3, 4, 5, 0⟩ ['a', 'b']
    (by decide) rfl (by decide) (by decide) (by decide)

/-! ### C9: canonicalization lemmas -/

/-- Helper: the code of a valid code point survives Char.ofNat. -/
theorem toNat_ofNat_valid (n : Nat) (h : n.isValidChar) :
    (Char.ofNat n).toNat = n := by
  unfold Char.ofNat
  rw [dif_pos h]
  rfl

/-- Helper: characters with different codes differ. -/
theorem charNe (c d : Char) (h : c.toNat ≠ d.toNat) : c ≠ d :=
  fun he => h (he ▸ rfl)

/-- Helper: lowering an upper-case ASCII letter adds 32 to its code. -/
theorem toLower_toNat_of_upper (c : Char)
    (h : 65 ≤ c.toNat ∧ c.toNat ≤ 90) :
    (Char.toLower c).toNat = c.toNat + 32 := by
  unfold Char.toLower
  rw [if_pos h]
  exact toNat_ofNat_valid _ (Or.inl (by omega))

/-- Helper: any other character is fixed by Char.toLower. -/
theorem toLower_eq_self_of (c : Char)
    (h : ¬(65 ≤ c.toNat ∧ c.toNat ≤ 90)) :
    Char.toLower c = c := by
  unfold Char.toLower
  rw [if_neg h]

/-- Helper: ASCII lowering is idempotent on characters. -/
theorem toLower_toLower (c : Char) :
    Char.toLower (Char.toLower c) = Char.toLower c := by
  by_cases h : 65 ≤ c.toNat ∧ c.toNat ≤ 90
  · apply toLower_eq_self_of
    rw [toLower_toNat_of_upper c h]
    omega
  · rw [toLower_eq_self_of c h, toLower_eq_self_of c h]

/-- Helper: strings.ToLower is idempotent on the modelled content. -/
theorem toLowerList_idem (l : List Char) :
    toLowerList (toLowerList l) = toLowerList l := by
  unfold toLowerList
  rw [List.map_map]
  exact List.map_congr_left (fun c _ => toLower_toLower c)

/-- Helper: host characters are none of the URL structure delimiters. -/
theorem hostSafeChar_spec (c : Char) (h : hostSafeChar c = true) :
    c ≠ '/' ∧ c ≠ '?' ∧ c ≠ '#' ∧ c ≠ '=' := by
  unfold hostSafeChar isAsciiLetter isDigitChar at h
  simp only [Bool.or_eq_true, decide_eq_true_eq] at h
  have : c.toNat ≠ 47 ∧ c.toNat ≠ 63 ∧ c.toNat ≠ 35 ∧ c.toNat ≠ 61 := by
    rcases h with ((((h | h) | h) | h) | h) | h
    · omega
    · omega
    · subst h; refine ⟨by decide, by decide, by decide, by decide⟩
    · subst h; refine ⟨by decide, by decide, by decide, by decide⟩
    · subst h; refine ⟨by decide, by decide, by decide, by decide⟩
    · subst h; refine ⟨by decide, by decide, by decide, by decide⟩
  exact ⟨charNe _ _ this.1, charNe _ _ this.2.1, charNe _ _ this.2.2.1,
    charNe _ _ this.2.2.2⟩

/-- Helper: path characters are none of the query or fragment
delimiters. -/
theorem pathSafeChar_spec (c : Char) (h : pathSafeChar c = true) :
    c ≠ '?' ∧ c ≠ '#' := by
  unfold pathSafeChar isAsciiLetter isDigitChar at h
  simp only [Bool.or_eq_true, decide_eq_true_eq] at h
  have : c.toNat ≠ 63 ∧ c.toNat ≠ 35 := by
    rcases h with (((((h | h) | h) | h) | h) | h) | h
    · omega
    · omega
    · subst h; exact ⟨by decide, by decide⟩
    · subst h; exact ⟨by decide, by decide⟩
    · subst h; exact ⟨by decide, by decide⟩
    · subst h; exact ⟨by decide, by decide⟩
    · subst h; exact ⟨by decide, by decide⟩
  exact ⟨charNe _ _ this.1, charNe _ _ this.2⟩

/-- Helper: lowering keeps a character host-safe. -/
theorem hostSafeChar_toLower (c : Char) (h : hostSafeChar c = true) :
    hostSafeChar (Char.toLower c) = true := by
  by_cases hu : 65 ≤ c.toNat ∧ c.toNat ≤ 90
  · unfold hostSafeChar isAsciiLetter
    simp only [Bool.or_eq_true, decide_eq_true_eq]
    left; left; left; left; left
    rw [toLower_toNat_of_upper c hu]
    omega
  · rw [toLower_eq_self_of c hu]
    exact h

/-- Helper: cutting a separator-free string finds nothing. -/
theorem cutOn_no_sep (sep : Char) (l : List Char) (h : sep ∉ l) :
    cutOn sep l = (l, none) := by
  induction l with
  | nil => rfl
  | cons c rest ih =>
    have hc : ¬ c = sep := fun he => h (he ▸ List.mem_cons_self c rest)
    have hrest : sep ∉ rest := fun hm => h (List.mem_cons_of_mem c hm)
    simp only [cutOn, if_neg hc, ih hrest]

/-- Helper: cutting at the first separator splits an explicit
occurrence. -/
theorem cutOn_app (sep : Char) (a : List Char) (ha : sep ∉ a)
    (b : List Char) :
    cutOn sep (a ++ sep :: b) = (a, some b) := by
  induction a with
  | nil => simp [cutOn]
  | cons c rest ih =>
    have hc : ¬ c = sep := fun he => ha (he ▸ List.mem_cons_self c rest)
    have hrest : sep ∉ rest := fun hm => ha (List.mem_cons_of_mem c hm)
    simp only [List.cons_append, cutOn, List.append_eq, if_neg hc, ih hrest]

/-- Helper: characterization of a successful cut. -/
theorem cutOn_eq_append (sep : Char) (l a b : List Char)
    (h : cutOn sep l = (a, some b)) : l = a ++ sep :: b ∧ sep ∉ a := by
  induction l generalizing a with
  | nil => cases h
  | cons c rest ih =>
    by_cases hc : c = sep
    · subst hc
      simp only [cutOn, if_pos rfl, Prod.mk.injEq, Option.some.injEq] at h
      obtain ⟨rfl, rfl⟩ := h
      exact ⟨rfl, List.not_mem_nil _⟩
    · simp only [cutOn, if_neg hc] at h
      cases ha : cutOn sep rest with
      | mk a2 b2 =>
        rw [ha] at h
        obtain ⟨rfl, rfl⟩ : c :: a2 = a ∧ b2 = some b := by
          constructor
          · exact congrArg Prod.fst h
          · exact congrArg Prod.snd h
        obtain ⟨hl, hna⟩ := ih a2 ha
        refine ⟨by rw [hl]; rfl, ?_⟩
        intro hm
        rcases List.mem_cons.mp hm with he | hm2
        · exact hc he.symm
        · exact hna hm2

/-- Helper: characterization of a cut that found no separator. -/
theorem cutOn_eq_none (sep : Char) (l a : List Char)
    (h : cutOn sep l = (a, none)) : a = l ∧ sep ∉ l := by
  induction l generalizing a with
  | nil =>
    simp only [cutOn, Prod.mk.injEq] at h
    exact ⟨h.1.symm, List.not_mem_nil _⟩
  | cons c rest ih =>
    by_cases hc : c = sep
    · subst hc
      rw [show cutOn c (c :: rest) = ([], some rest) from by
        simp [cutOn]] at h
      cases congrArg Prod.snd h
    · simp only [cutOn, if_neg hc] at h
      cases ha : cutOn sep rest with
      | mk a2 b2 =>
        rw [ha] at h
        obtain ⟨rfl, rfl⟩ : c :: a2 = a ∧ b2 = none := by
          constructor
          · exact congrArg Prod.fst h
          · exact congrArg Prod.snd h
        obtain ⟨rfl, hns⟩ := ih a2 ha
        refine ⟨rfl, ?_⟩
        intro hm
        rcases List.mem_cons.mp hm with he | hm2
        · exact hc he.symm
        · exact hns hm2

/-- Helper: characterization of a successful last-colon split. -/
theorem splitLastColon_eq (l a b : List Char)
    (h : splitLastColon l = some (a, b)) : l = a ++ ':' :: b := by
  induction l generalizing a b with
  | nil => cases h
  | cons c rest ih =>
    simp only [splitLastColon] at h
    cases hr : splitLastColon rest with
    | some p =>
      obtain ⟨a2, b2⟩ := p
      rw [hr] at h
      have hinj := Option.some.inj h
      have ha2 : a = c :: a2 := (congrArg Prod.fst hinj).symm
      have hb2 : b = b2 := (congrArg Prod.snd hinj).symm
      rw [ha2, hb2, ih a2 b2 hr]
      rfl
    | none =>
      rw [hr] at h
      by_cases hc : c = ':'
      · rw [if_pos hc] at h
        have hinj := Option.some.inj h
        have ha2 : a = [] := (congrArg Prod.fst hinj).symm
        have hb2 : b = rest := (congrArg Prod.snd hinj).symm
        rw [ha2, hb2, hc]
        rfl
      · rw [if_neg hc] at h
        cases h

/-- Helper: take/drop of an append at a boundary the predicate marks. -/
theorem takeWhile_append2 (p : Char → Bool) (a b : List Char)
    (ha : ∀ c ∈ a, p c = true)
    (hb : ∀ c, b.head? = some c → p c = false) :
    (a ++ b).takeWhile p = a ∧ (a ++ b).dropWhile p = b := by
  induction a with
  | nil =>
    cases b with
    | nil => exact ⟨rfl, rfl⟩
    | cons c rest =>
      have hc := hb c rfl
      simp [List.takeWhile, List.dropWhile, hc]
  | cons c rest ih =>
    have hc := ha c (List.mem_cons_self c rest)
    have ih2 := ih (fun x hx => ha x (List.mem_cons_of_mem c hx))
    simp [List.takeWhile, List.dropWhile, hc, ih2.1, ih2.2]

/-- Helper: dropWhile either empties the list or stops at a failing
head. -/
theorem dropWhile_head (p : Char → Bool) (l : List Char) :
    l.dropWhile p = [] ∨
      ∃ c rest, l.dropWhile p = c :: rest ∧ p c = false := by
  induction l with
  | nil => exact Or.inl rfl
  | cons c rest ih =>
    by_cases hc : p c = true
    · simpa [List.dropWhile, hc] using ih
    · right
      exact ⟨c, rest, by simp [List.dropWhile, hc], by simpa using hc⟩

/-- Helper: what a successful parse guarantees about the parts. -/
theorem parseURL_spec (raw : List Char) (u : URLParts)
    (h : parseURL raw = some u) :
    u.host.all hostSafeChar = true ∧ u.path.all pathSafeChar = true ∧
      u.host ≠ [] ∧ (u.path = [] ∨ u.path.head? = some '/') ∧
      '#' ∉ u.query := by
  unfold parseURL at h
  cases h1 : cutOn '#' raw with
  | mk noFrag fragOpt =>
    rw [h1] at h
    simp only [] at h
    cases h2 : cutOn '?' noFrag with
    | mk noQuery queryOpt =>
      rw [h2] at h
      try simp only [] at h
      by_cases hg : queryOpt = some ([] : List Char)
      · rw [if_pos hg] at h
        cases h
      · rw [if_neg hg] at h
        cases h3 : cutOn ':' noQuery with
        | mk schemeRaw restOpt =>
          rw [h3] at h
          try simp only [] at h
          cases restOpt with
          | none =>
            simp only [] at h
            cases h
          | some rest =>
            simp only [] at h
            by_cases hs : schemeRaw = []
            · rw [if_pos hs] at h
              cases h
            · rw [if_neg hs] at h
              have hfree : '#' ∉ noFrag := by
                cases fragOpt with
                | none =>
                  obtain ⟨heq, hnot⟩ := cutOn_eq_none '#' raw noFrag h1
                  intro hm
                  exact hnot (heq ▸ hm)
                | some f => exact (cutOn_eq_append '#' raw noFrag f h1).2
              by_cases hpre : rest.take 2 = ['/', '/']
              · rw [if_pos hpre] at h
                try simp only [] at h
                by_cases hhe : (rest.drop 2).takeWhile (fun c => c != '/') = []
                · rw [if_pos hhe] at h
                  cases h
                · rw [if_neg hhe] at h
                  by_cases hall : (((rest.drop 2).takeWhile (fun c => c != '/')).all hostSafeChar &&
                      ((rest.drop 2).dropWhile (fun c => c != '/')).all pathSafeChar) = true
                  · rw [if_pos hall] at h
                    obtain rfl := (Option.some.inj h).symm
                    rw [Bool.and_eq_true] at hall
                    refine ⟨hall.1, hall.2, hhe, ?_, ?_⟩
                    · rcases dropWhile_head (fun c => c != '/') (rest.drop 2) with
                        hnil | ⟨c, crest, hcons, hfc⟩
                      · exact Or.inl hnil
                      · right
                        rw [hcons]
                        have : c = '/' := by
                          simpa [bne_iff_ne] using hfc
                        rw [this]
                        rfl
                    · show '#' ∉ queryOpt.getD []
                      cases queryOpt with
                      | none => exact List.not_mem_nil _
                      | some q =>
                        intro hmem
                        have hsplit := (cutOn_eq_append '?' noFrag noQuery q h2).1
                        exact hfree (hsplit ▸ List.mem_append_right _
                          (List.mem_cons_of_mem _ hmem))
                  · rw [if_neg hall] at h
                    cases h
              · rw [if_neg hpre] at h
                cases h

/-- Helper: where a character of a rendered URL can come from. -/
theorem mem_renderURL (scheme host path query : List Char) (c : Char)
    (hm : c ∈ renderURL scheme host path query) :
    c ∈ scheme ∨ c = ':' ∨ c = '/' ∨ c ∈ host ∨ c ∈ path ∨
      (query ≠ [] ∧ (c = '?' ∨ c ∈ query)) := by
  unfold renderURL at hm
  by_cases hqe : query = []
  · rw [if_pos hqe] at hm
    simp only [List.mem_append, List.mem_cons, List.append_nil,
      List.not_mem_nil, or_false] at hm
    tauto
  · rw [if_neg hqe] at hm
    simp only [List.mem_append, List.mem_cons] at hm
    tauto

/-- Helper: URL.String of canonical-shaped parts parses back to exactly
those parts. -/
theorem parseURL_render (scheme host path query : List Char)
    (hscheme : scheme = "http".toList ∨ scheme = "https".toList)
    (hhost : host.all hostSafeChar = true) (hne : host ≠ [])
    (hpath : path.all pathSafeChar = true)
    (hshape : path = [] ∨ path.head? = some '/')
    (hquery : '#' ∉ query) :
    parseURL (renderURL scheme host path query) =
      some ⟨toLowerList scheme, host, path, query, []⟩ := by
  have hsfacts : ':' ∉ scheme ∧ '#' ∉ scheme ∧ '?' ∉ scheme ∧ scheme ≠ [] := by
    rcases hscheme with rfl | rfl
    · exact ⟨by decide, by decide, by decide, by decide⟩
    · exact ⟨by decide, by decide, by decide, by decide⟩
  have hhostc : ∀ c ∈ host, c ≠ '/' ∧ c ≠ '?' ∧ c ≠ '#' := by
    intro c hc
    have := hostSafeChar_spec c (List.all_eq_true.mp hhost c hc)
    exact ⟨this.1, this.2.1, this.2.2.1⟩
  have hpathc : ∀ c ∈ path, c ≠ '?' ∧ c ≠ '#' := by
    intro c hc
    exact pathSafeChar_spec c (List.all_eq_true.mp hpath c hc)
  have hnofrag : '#' ∉ renderURL scheme host path query := by
    intro hm
    rcases mem_renderURL scheme host path query '#' hm with
      h | h | h | h | h | ⟨hq, h | h⟩
    · exact hsfacts.2.1 h
    · cases h
    · cases h
    · exact (hhostc _ h).2.2 rfl
    · exact (hpathc _ h).2 rfl
    · cases h
    · exact hquery h
  have hnoq : '?' ∉ renderURL scheme host path [] := by
    intro hm
    rcases mem_renderURL scheme host path [] '?' hm with
      h | h | h | h | h | ⟨hq, h⟩
    · exact hsfacts.2.2.1 h
    · cases h
    · cases h
    · exact (hhostc _ h).2.1 rfl
    · exact (hpathc _ h).1 rfl
    · exact hq rfl
  have hA : renderURL scheme host path [] =
      scheme ++ ':' :: ('/' :: '/' :: (host ++ path)) := by
    simp [renderURL]
  have htw : ((host ++ path).takeWhile (fun c => c != '/') = host) ∧
      ((host ++ path).dropWhile (fun c => c != '/') = path) := by
    refine takeWhile_append2 _ host path ?_ ?_
    · intro c hc
      exact bne_iff_ne.mpr (hhostc c hc).1
    · intro c hc
      rcases hshape with rfl | hhd
      · cases hc
      · rw [hhd] at hc
        obtain rfl := Option.some.inj hc
        simp
  have hcolon : cutOn ':' (scheme ++ ':' :: ('/' :: '/' :: (host ++ path))) =
      (scheme, some ('/' :: '/' :: (host ++ path))) :=
    cutOn_app ':' scheme hsfacts.1 _
  by_cases hqe : query = []
  · subst hqe
    have hnoq2 : '?' ∉ renderURL scheme host path [] := hnoq
    unfold parseURL
    rw [cutOn_no_sep '#' _ hnofrag]
    try simp only []
    rw [cutOn_no_sep '?' _ hnoq2]
    try simp only []
    rw [if_neg (by simp)]
    rw [hA, hcolon]
    try simp only []
    rw [if_neg hsfacts.2.2.2]
    rw [if_pos (by rfl)]
    try simp only []
    rw [show List.drop 2 ('/' :: '/' :: (host ++ path)) = host ++ path from rfl,
      htw.1, htw.2]
    rw [if_neg hne]
    rw [if_pos (by rw [hhost, hpath]; rfl)]
    rfl
  · have hsplit : renderURL scheme host path query =
        renderURL scheme host path [] ++ '?' :: query := by
      simp [renderURL, if_neg hqe, List.append_assoc]
    unfold parseURL
    rw [hsplit] at hnofrag ⊢
    rw [cutOn_no_sep '#' _ hnofrag]
    try simp only []
    rw [cutOn_app '?' _ hnoq query]
    try simp only []
    rw [if_neg (by simpa using hqe)]
    rw [hA, hcolon]
    try simp only []
    rw [if_neg hsfacts.2.2.2]
    rw [if_pos (by rfl)]
    try simp only []
    rw [show List.drop 2 ('/' :: '/' :: (host ++ path)) = host ++ path from rfl,
      htw.1, htw.2]
    rw [if_neg hne]
    rw [if_pos (by rw [hhost, hpath]; rfl)]
    rfl

/-- Helper: unescaping is the identity on escape-free content. -/
theorem queryUnescape_id (l : List Char)
    (h : ∀ c ∈ l, c ≠ '%' ∧ c ≠ '+') : queryUnescape l = some l := by
  induction l with
  | nil => rfl
  | cons c rest ih =>
    have hc := h c (List.mem_cons_self c rest)
    have ih2 := ih (fun x hx => h x (List.mem_cons_of_mem c hx))
    rw [queryUnescape.eq_def]
    simp only [if_neg hc.1, if_neg hc.2, ih2]

/-- Helper: every piece the splitter produces is separator-free and made
of input characters. -/
theorem splitOnChar_mem (sep : Char) (l : List Char) (p : List Char)
    (hp : p ∈ splitOnChar sep l) : (∀ c ∈ p, c ∈ l) ∧ sep ∉ p := by
  induction l generalizing p with
  | nil =>
    simp only [splitOnChar, List.mem_singleton] at hp
    subst hp
    exact ⟨by simp, by simp⟩
  | cons c rest ih =>
    by_cases hc : c = sep
    · simp only [splitOnChar, if_pos hc, List.mem_cons] at hp
      rcases hp with rfl | hp
      · exact ⟨by simp, by simp⟩
      · obtain ⟨hsub, hns⟩ := ih p hp
        exact ⟨fun x hx => List.mem_cons_of_mem c (hsub x hx), hns⟩
    · simp only [splitOnChar, if_neg hc] at hp
      cases hsp : splitOnChar sep rest with
      | nil =>
        rw [hsp] at hp
        simp only [List.mem_singleton] at hp
        subst hp
        refine ⟨fun x hx => ?_, ?_⟩
        · simp only [List.mem_singleton] at hx
          exact hx ▸ List.mem_cons_self c rest
        · intro hm
          simp only [List.mem_singleton] at hm
          exact hc hm.symm
      | cons p0 ps =>
        rw [hsp] at hp
        rcases List.mem_cons.mp hp with rfl | hp2
        · have hp0 := ih p0 (hsp ▸ List.mem_cons_self p0 ps)
          constructor
          · intro x hx
            rcases List.mem_cons.mp hx with rfl | hx2
            · exact List.mem_cons_self x rest
            · exact List.mem_cons_of_mem c (hp0.1 x hx2)
          · intro hm
            rcases List.mem_cons.mp hm with he | hm2
            · exact hc he.symm
            · exact hp0.2 hm2
        · obtain ⟨hsub, hns⟩ := ih p (hsp ▸ List.mem_cons_of_mem p0 hp2)
          exact ⟨fun x hx => List.mem_cons_of_mem c (hsub x hx), hns⟩

/-- Helper: evaluating parsePiece from the cut and the two unescapes. -/
theorem parsePiece_eval (piece k : List Char) (vOpt : Option (List Char))
    (k2 v2 : List Char)
    (hcut : cutOn '=' piece = (k, vOpt))
    (h1 : queryUnescape k = some k2)
    (h2 : queryUnescape (vOpt.getD []) = some v2) :
    parsePiece piece = some (k2, v2) := by
  unfold parsePiece
  rw [hcut]
  simp only [h1, h2]

/-- Helper: a piece free of escapes parses to its raw key and value. -/
theorem parsePiece_clean (piece : List Char)
    (hnp : ∀ c ∈ piece, c ≠ '%' ∧ c ≠ '+') :
    ∃ k vOpt, cutOn '=' piece = (k, vOpt) ∧
      parsePiece piece = some (k, vOpt.getD []) ∧
      (∀ c ∈ k, c ∈ piece ∧ c ≠ '=') ∧ (∀ c ∈ vOpt.getD [], c ∈ piece) := by
  cases hcut : cutOn '=' piece with
  | mk k vOpt =>
    cases vOpt with
    | none =>
      obtain ⟨heq, hne⟩ := cutOn_eq_none '=' piece k hcut
      refine ⟨k, none, rfl, ?_, ?_, ?_⟩
      · exact parsePiece_eval piece k none k [] hcut
          (queryUnescape_id k (fun c hc => hnp c (heq ▸ hc))) rfl
      · exact fun c hc => ⟨heq ▸ hc, fun he => hne (he ▸ heq ▸ hc)⟩
      · intro c hc
        cases hc
    | some v =>
      obtain ⟨hpe, hnk⟩ := cutOn_eq_append '=' piece k v hcut
      have hkmem : ∀ c ∈ k, c ∈ piece :=
        fun c hc => hpe ▸ List.mem_append_left _ hc
      have hvmem : ∀ c ∈ v, c ∈ piece :=
        fun c hc => hpe ▸ List.mem_append_right _ (List.mem_cons_of_mem _ hc)
      refine ⟨k, some v, rfl, ?_, ?_, ?_⟩
      · exact parsePiece_eval piece k (some v) k v hcut
          (queryUnescape_id k (fun c hc => hnp c (hkmem c hc)))
          (queryUnescape_id v (fun c hc => hnp c (hvmem c hc)))
      · exact fun c hc => ⟨hkmem c hc, fun he => hnk (he ▸ hc)⟩
      · exact fun c hc => hvmem c hc

/-- Helper: when escape-free pieces parse, every produced pair is made of
piece characters, free of separators and escapes, with a "="-free key. -/
theorem parseQueryList_clean (pieces : List (List Char))
    (pairs : List (List Char × List Char))
    (h : parseQueryList pieces = some pairs)
    (hpieces : ∀ piece ∈ pieces, ∀ c ∈ piece, c ≠ '&' ∧ c ≠ '%' ∧ c ≠ '+') :
    ∀ p ∈ pairs,
      (∀ c ∈ p.1, (∃ piece ∈ pieces, c ∈ piece) ∧
        c ≠ '&' ∧ c ≠ ';' ∧ c ≠ '%' ∧ c ≠ '+' ∧ c ≠ '=') ∧
      (∀ c ∈ p.2, (∃ piece ∈ pieces, c ∈ piece) ∧
        c ≠ '&' ∧ c ≠ ';' ∧ c ≠ '%' ∧ c ≠ '+') := by
  induction pieces generalizing pairs with
  | nil =>
    obtain rfl := (Option.some.inj h).symm
    intro p hp
    cases hp
  | cons piece rest ih =>
    simp only [parseQueryList] at h
    by_cases hsemi : ';' ∈ piece
    · rw [if_pos hsemi] at h
      cases h
    · rw [if_neg hsemi] at h
      by_cases hemp : piece = []
      · rw [if_pos hemp] at h
        intro p hp
        have hrest := ih pairs h
          (fun pc hpc => hpieces pc (List.mem_cons_of_mem piece hpc)) p hp
        refine ⟨fun c hc => ?_, fun c hc => ?_⟩
        · obtain ⟨⟨pc, hpc, hcc⟩, hfacts⟩ := (hrest.1 c hc)
          exact ⟨⟨pc, List.mem_cons_of_mem piece hpc, hcc⟩, hfacts⟩
        · obtain ⟨⟨pc, hpc, hcc⟩, hfacts⟩ := (hrest.2 c hc)
          exact ⟨⟨pc, List.mem_cons_of_mem piece hpc, hcc⟩, hfacts⟩
      · rw [if_neg hemp] at h
        obtain ⟨k, vOpt, hcut, hpp, hkc, hvc⟩ := parsePiece_clean piece
          (fun c hc =>
            ⟨(hpieces piece (List.mem_cons_self piece rest) c hc).2.1,
             (hpieces piece (List.mem_cons_self piece rest) c hc).2.2⟩)
        rw [hpp] at h
        cases htail : parseQueryList rest with
        | none =>
          rw [htail] at h
          cases h
        | some tail =>
          rw [htail] at h
          simp only [] at h
          obtain rfl := (Option.some.inj h).symm
          intro p hp
          rcases List.mem_cons.mp hp with rfl | hp2
          · constructor
            · intro c hc
              have hm := (hkc c hc).1
              have hf := hpieces piece (List.mem_cons_self piece rest) c hm
              exact ⟨⟨piece, List.mem_cons_self piece rest, hm⟩, hf.1,
                fun he => hsemi (he ▸ hm), hf.2.1, hf.2.2, (hkc c hc).2⟩
            · intro c hc
              have hm := hvc c hc
              have hf := hpieces piece (List.mem_cons_self piece rest) c hm
              exact ⟨⟨piece, List.mem_cons_self piece rest, hm⟩, hf.1,
                fun he => hsemi (he ▸ hm), hf.2.1, hf.2.2⟩
          · have hrest := ih tail htail
              (fun pc hpc => hpieces pc (List.mem_cons_of_mem piece hpc)) p hp2
            refine ⟨fun c hc => ?_, fun c hc => ?_⟩
            · obtain ⟨⟨pc, hpc, hcc⟩, hfacts⟩ := (hrest.1 c hc)
              exact ⟨⟨pc, List.mem_cons_of_mem piece hpc, hcc⟩, hfacts⟩
            · obtain ⟨⟨pc, hpc, hcc⟩, hfacts⟩ := (hrest.2 c hc)
              exact ⟨⟨pc, List.mem_cons_of_mem piece hpc, hcc⟩, hfacts⟩

/-- Helper: pairs of a parsed escape-free query are made of query
characters, free of the separators and escapes, with "="-free keys. -/
theorem parseQuery_clean (q : List Char)
    (pairs : List (List Char × List Char))
    (h : parseQuery q = some pairs) (h1 : '%' ∉ q) (h2 : '+' ∉ q) :
    ∀ p ∈ pairs,
      (∀ c ∈ p.1, c ∈ q ∧ c ≠ '&' ∧ c ≠ ';' ∧ c ≠ '%' ∧ c ≠ '+' ∧ c ≠ '=') ∧
      (∀ c ∈ p.2, c ∈ q ∧ c ≠ '&' ∧ c ≠ ';' ∧ c ≠ '%' ∧ c ≠ '+') := by
  have hmain := parseQueryList_clean (splitOnChar '&' q) pairs h ?_
  · intro p hp
    refine ⟨fun c hc => ?_, fun c hc => ?_⟩
    · obtain ⟨⟨pc, hpc, hcc⟩, hfacts⟩ := ((hmain p hp).1 c hc)
      exact ⟨(splitOnChar_mem '&' q pc hpc).1 c hcc, hfacts⟩
    · obtain ⟨⟨pc, hpc, hcc⟩, hfacts⟩ := ((hmain p hp).2 c hc)
      exact ⟨(splitOnChar_mem '&' q pc hpc).1 c hcc, hfacts⟩
  · intro piece hpc c hcc
    obtain ⟨hsub, hns⟩ := splitOnChar_mem '&' q piece hpc
    exact ⟨fun he => hns (he ▸ hcc), fun he => h1 (he ▸ hsub c hcc),
      fun he => h2 (he ▸ hsub c hcc)⟩

/-- Helper: the string order sort.Strings uses is transitive. -/
theorem strLE_trans2 (a b c : List Char) (hab : strLE a b = true)
    (hbc : strLE b c = true) : strLE a c = true := by
  simp only [strLE, decide_eq_true_eq] at *
  exact le_trans hab hbc

/-- Helper: the string order is total. -/
theorem strLE_total2 (a b : List Char) : (strLE a b || strLE b a) = true := by
  simp only [strLE, Bool.or_eq_true, decide_eq_true_eq]
  exact le_total a b

/-- Helper: the string order is antisymmetric. -/
theorem strLE_antisymm (a b : List Char) (hab : strLE a b = true)
    (hba : strLE b a = true) : a = b := by
  simp only [strLE, decide_eq_true_eq] at *
  exact le_antisymm hab hba

instance : IsAntisymm (List Char) (fun a b => strLE a b = true) :=
  ⟨strLE_antisymm⟩

instance : IsTrans (List Char) (fun a b => strLE a b = true) :=
  ⟨strLE_trans2⟩

instance : IsTotal (List Char) (fun a b => strLE a b = true) :=
  ⟨fun a b => by
    have h := strLE_total2 a b
    rw [Bool.or_eq_true] at h
    exact h⟩

/-- Helper: functions equal on a list give equal flatMaps. -/
theorem flatMap_congr_mem {α β : Type} (l : List α) (f g : α → List β)
    (h : ∀ a ∈ l, f a = g a) : l.flatMap f = l.flatMap g := by
  induction l with
  | nil => rfl
  | cons a rest ih =>
    simp only [List.flatMap_cons, h a (List.mem_cons_self a rest),
      ih (fun x hx => h x (List.mem_cons_of_mem a hx))]

/-- Helper: sorting keeps membership. -/
theorem mem_sortStrings (l : List (List Char)) (k : List Char) :
    k ∈ sortStrings l ↔ k ∈ l :=
  (List.perm_insertionSort (fun a b => strLE a b = true) l).mem_iff

/-- Helper: sorting keeps freedom from duplicates. -/
theorem sortStrings_nodup (l : List (List Char)) (h : l.Nodup) :
    (sortStrings l).Nodup :=
  (List.perm_insertionSort (fun a b => strLE a b = true) l).nodup_iff.mpr h

/-- Helper: every grouped pair comes from the input list. -/
theorem groupSort_sub (l : List (List Char × List Char))
    (p : List Char × List Char) (hp : p ∈ groupSort l) : p ∈ l := by
  unfold groupSort at hp
  obtain ⟨k, _, hpk⟩ := List.mem_flatMap.mp hp
  exact (List.mem_filter.mp hpk).1

/-- Helper: grouping keeps exactly the input's keys. -/
theorem map_fst_groupSort (l : List (List Char × List Char))
    (k : List Char) :
    k ∈ (groupSort l).map Prod.fst ↔ k ∈ l.map Prod.fst := by
  constructor
  · intro h
    obtain ⟨p, hp, hpk⟩ := List.mem_map.mp h
    exact List.mem_map.mpr ⟨p, groupSort_sub l p hp, hpk⟩
  · intro h
    obtain ⟨p, hp, hpk⟩ := List.mem_map.mp h
    refine List.mem_map.mpr ⟨p, ?_, hpk⟩
    unfold groupSort
    refine List.mem_flatMap.mpr ⟨k, ?_, ?_⟩
    · rw [mem_sortStrings, List.mem_dedup]
      exact List.mem_map.mpr ⟨p, hp, hpk⟩
    · exact List.mem_filter.mpr ⟨hp, by simp [hpk]⟩

/-- Helper: the sorted key list of a grouped list equals that of the
input. -/
theorem groupSort_keys_eq (l : List (List Char × List Char)) :
    sortStrings (((groupSort l).map Prod.fst).dedup) =
      sortStrings ((l.map Prod.fst).dedup) := by
  apply List.eq_of_perm_of_sorted (r := fun a b => strLE a b = true)
  · rw [List.perm_ext_iff_of_nodup
      (sortStrings_nodup _ (List.nodup_dedup _))
      (sortStrings_nodup _ (List.nodup_dedup _))]
    intro k
    rw [mem_sortStrings, mem_sortStrings, List.mem_dedup, List.mem_dedup]
    exact map_fst_groupSort l k
  · exact List.sorted_insertionSort (fun a b => strLE a b = true) _
  · exact List.sorted_insertionSort (fun a b => strLE a b = true) _

/-- Helper: re-filtering one key's block keeps or empties it. -/
theorem filter_block (l : List (List Char × List Char)) (k k0 : List Char) :
    (l.filter (fun p => decide (p.1 = k))).filter
        (fun p => decide (p.1 = k0)) =
      if k0 = k then l.filter (fun p => decide (p.1 = k)) else [] := by
  by_cases h : k0 = k
  · subst h
    rw [if_pos rfl]
    rw [List.filter_filter]
    apply List.filter_congr
    intro p _
    simp
  · rw [if_neg h]
    apply List.filter_eq_nil_iff.mpr
    intro p hp
    have hk := (List.mem_filter.mp hp).2
    simp only [decide_eq_true_eq] at hk
    simp only [hk]
    exact fun hd => h (of_decide_eq_true hd).symm

/-- Helper: filtering a key out of a nodup-keyed block concatenation
gives that key's block. -/
theorem filter_flatMap_blocks (ks : List (List Char)) (hks : ks.Nodup)
    (l : List (List Char × List Char)) (k0 : List Char) :
    (ks.flatMap (fun k => l.filter (fun p => decide (p.1 = k)))).filter
        (fun p => decide (p.1 = k0)) =
      if k0 ∈ ks then l.filter (fun p => decide (p.1 = k0)) else [] := by
  induction ks with
  | nil => simp
  | cons k rest ih =>
    have hkr : k ∉ rest := (List.nodup_cons.mp hks).1
    have hrest : rest.Nodup := (List.nodup_cons.mp hks).2
    rw [List.flatMap_cons, List.filter_append, filter_block, ih hrest]
    by_cases h0 : k0 = k
    · subst h0
      rw [if_pos rfl, if_neg hkr, if_pos (List.mem_cons_self k0 rest),
        List.append_nil]
    · rw [if_neg h0, List.nil_append]
      by_cases hr : k0 ∈ rest
      · rw [if_pos hr, if_pos (List.mem_cons_of_mem k hr)]
      · rw [if_neg hr, if_neg (by
          intro hm
          rcases List.mem_cons.mp hm with h | h
          · exact h0 h
          · exact hr h)]

/-- Helper: grouping is idempotent. -/
theorem groupSort_idem (l : List (List Char × List Char)) :
    groupSort (groupSort l) = groupSort l := by
  show (sortStrings (((groupSort l).map Prod.fst).dedup)).flatMap
      (fun k => (groupSort l).filter (fun p => decide (p.1 = k))) =
    groupSort l
  rw [groupSort_keys_eq]
  rw [flatMap_congr_mem (sortStrings ((l.map Prod.fst).dedup))
    (fun k => (groupSort l).filter (fun p => decide (p.1 = k)))
    (fun k => l.filter (fun p => decide (p.1 = k)))
    (by
      intro k hk
      show (groupSort l).filter (fun p => decide (p.1 = k)) =
        l.filter (fun p => decide (p.1 = k))
      unfold groupSort
      rw [filter_flatMap_blocks _
        (sortStrings_nodup _ (List.nodup_dedup _)) l k,
        if_pos hk])]
  rfl

/-- Helper: every character of the rebuilt query is "=", "&" or a pair
character. -/
theorem mem_rebuildQuery (L : List (List Char × List Char)) (c : Char)
    (hc : c ∈ rebuildQuery L) :
    c = '=' ∨ c = '&' ∨ ∃ p ∈ L, c ∈ p.1 ∨ c ∈ p.2 := by
  induction L with
  | nil => cases hc
  | cons p rest ih =>
    cases rest with
    | nil =>
      simp only [rebuildQuery, List.mem_append, List.mem_cons] at hc
      rcases hc with h | h | h
      · exact Or.inr (Or.inr ⟨p, List.mem_cons_self p [], Or.inl h⟩)
      · exact Or.inl h
      · exact Or.inr (Or.inr ⟨p, List.mem_cons_self p [], Or.inr h⟩)
    | cons q rs =>
      simp only [rebuildQuery, List.mem_append, List.mem_cons] at hc
      rcases hc with (h | h | h) | h | h
      · exact Or.inr (Or.inr ⟨p, List.mem_cons_self p (q :: rs), Or.inl h⟩)
      · exact Or.inl h
      · exact Or.inr (Or.inr ⟨p, List.mem_cons_self p (q :: rs), Or.inr h⟩)
      · exact Or.inr (Or.inl h)
      · rcases ih h with h2 | h2 | ⟨p2, hp2, hm2⟩
        · exact Or.inl h2
        · exact Or.inr (Or.inl h2)
        · exact Or.inr (Or.inr ⟨p2, List.mem_cons_of_mem p hp2, hm2⟩)

/-- Helper: one clean pair's rendering parses back to that pair. -/
theorem parsePiece_rebuild (p : List Char × List Char)
    (hk : ∀ c ∈ p.1, c ≠ '&' ∧ c ≠ ';' ∧ c ≠ '%' ∧ c ≠ '+' ∧ c ≠ '=')
    (hv : ∀ c ∈ p.2, c ≠ '&' ∧ c ≠ ';' ∧ c ≠ '%' ∧ c ≠ '+') :
    parsePiece (p.1 ++ '=' :: p.2) = some p := by
  have hcut : cutOn '=' (p.1 ++ '=' :: p.2) = (p.1, some p.2) :=
    cutOn_app '=' p.1 (fun hm => (hk '=' hm).2.2.2.2 rfl) p.2
  exact parsePiece_eval (p.1 ++ '=' :: p.2) p.1 (some p.2) p.1 p.2 hcut
    (queryUnescape_id p.1 (fun c hc => ⟨(hk c hc).2.2.1, (hk c hc).2.2.2.1⟩))
    (queryUnescape_id p.2 (fun c hc => ⟨(hv c hc).2.2.1, (hv c hc).2.2.2⟩))

/-- Helper: the rebuilt query of clean pairs parses back to exactly
those pairs. -/
theorem parseQuery_rebuild (L : List (List Char × List Char))
    (hcl : ∀ p ∈ L,
      (∀ c ∈ p.1, c ≠ '&' ∧ c ≠ ';' ∧ c ≠ '%' ∧ c ≠ '+' ∧ c ≠ '=') ∧
      (∀ c ∈ p.2, c ≠ '&' ∧ c ≠ ';' ∧ c ≠ '%' ∧ c ≠ '+')) :
    parseQuery (rebuildQuery L) = some L := by
  induction L with
  | nil => rfl
  | cons p rest ih =>
    have hp := hcl p (List.mem_cons_self p rest)
    have hpiece : ∀ c ∈ p.1 ++ '=' :: p.2, c ≠ '&' ∧ c ≠ ';' := by
      intro c hc
      rcases List.mem_append.mp hc with h | h
      · exact ⟨(hp.1 c h).1, (hp.1 c h).2.1⟩
      · rcases List.mem_cons.mp h with rfl | h
        · exact ⟨by decide, by decide⟩
        · exact ⟨(hp.2 c h).1, (hp.2 c h).2.1⟩
    have hsemi : ';' ∉ p.1 ++ '=' :: p.2 :=
      fun hm => (hpiece ';' hm).2 rfl
    have hamp : '&' ∉ p.1 ++ '=' :: p.2 :=
      fun hm => (hpiece '&' hm).1 rfl
    have hne : p.1 ++ '=' :: p.2 ≠ [] := by simp
    have hpp := parsePiece_rebuild p hp.1 hp.2
    cases rest with
    | nil =>
      show parseQueryList (splitOnChar '&' (p.1 ++ '=' :: p.2)) = some [p]
      rw [splitOnChar_no_sep '&' _ hamp]
      simp only [parseQueryList, if_neg hsemi, if_neg hne, hpp]
    | cons q rs =>
      have hih := ih (fun x hx => hcl x (List.mem_cons_of_mem p hx))
      have hih2 : parseQueryList (splitOnChar '&' (rebuildQuery (q :: rs))) =
          some (q :: rs) := hih
      have hstep : rebuildQuery (p :: q :: rs) =
          (p.1 ++ '=' :: p.2) ++ '&' :: rebuildQuery (q :: rs) := by
        simp [rebuildQuery, List.append_assoc]
      unfold parseQuery
      rw [hstep, splitOnChar_app '&' _ hamp _]
      simp only [parseQueryList, if_neg hsemi, if_neg hne, hpp, hih2]

/-- Helper: on an escape-free query, sortQueryParams is idempotent. -/
theorem sortQueryParams_stable (q : List Char) (h1 : '%' ∉ q)
    (h2 : '+' ∉ q) :
    sortQueryParams (sortQueryParams q) = sortQueryParams q := by
  cases hpq : parseQuery q with
  | none =>
    have hq : sortQueryParams q = q := by
      unfold sortQueryParams
      rw [hpq]
    rw [hq, hq]
  | some pairs =>
    have hclean := parseQuery_clean q pairs hpq h1 h2
    have hsq : sortQueryParams q = rebuildQuery (groupSort pairs) := by
      unfold sortQueryParams
      rw [hpq]
    have hgclean : ∀ p ∈ groupSort pairs,
        (∀ c ∈ p.1, c ≠ '&' ∧ c ≠ ';' ∧ c ≠ '%' ∧ c ≠ '+' ∧ c ≠ '=') ∧
        (∀ c ∈ p.2, c ≠ '&' ∧ c ≠ ';' ∧ c ≠ '%' ∧ c ≠ '+') := by
      intro p hp
      have h := hclean p (groupSort_sub pairs p hp)
      exact ⟨fun c hc => ((h.1 c hc).2 : _),
        fun c hc => ((h.2 c hc).2 : _)⟩
    have hre := parseQuery_rebuild (groupSort pairs) hgclean
    rw [hsq]
    unfold sortQueryParams
    rw [hre]
    show rebuildQuery (groupSort (groupSort pairs)) =
      rebuildQuery (groupSort pairs)
    rw [groupSort_idem]

/-- Helper: lowering a lower-fixed string changes nothing. -/
theorem toLowerList_fix (l : List Char) (h : ∀ c ∈ l, c.toLower = c) :
    toLowerList l = l := by
  induction l with
  | nil => rfl
  | cons c rest ih =>
    show c.toLower :: toLowerList rest = c :: rest
    rw [h c (List.mem_cons_self c rest),
      ih (fun x hx => h x (List.mem_cons_of_mem c hx))]

/-- Helper: every character of a lowered string is lower-fixed. -/
theorem mem_toLowerList_fix (l : List Char) (c : Char)
    (hc : c ∈ toLowerList l) : c.toLower = c := by
  obtain ⟨d, _, rfl⟩ := List.mem_map.mp hc
  exact toLower_toLower d

/-- Helper: the hostname is made of host characters. -/
theorem hostname_sub (host : List Char) (c : Char)
    (hc : c ∈ hostname host) : c ∈ host := by
  unfold hostname at hc
  cases hsp : splitLastColon host with
  | none =>
    rw [hsp] at hc
    exact hc
  | some ab =>
    obtain ⟨a, b⟩ := ab
    rw [hsp] at hc
    try simp only [] at hc
    by_cases hd : b.all isDigitChar = true
    · rw [if_pos hd] at hc
      rw [splitLastColon_eq host a b hsp]
      exact List.mem_append_left _ hc
    · rw [if_neg hd] at hc
      exact hc

/-- Helper: a path with no trailing slash is normalization-fixed. -/
theorem normalizePath_fix (r : List Char) (h : r.getLast? ≠ some '/') :
    normalizePath r = r := by
  unfold normalizePath
  by_cases h0 : r = [] ∨ r = ['/']
  · rcases h0 with rfl | rfl
    · rw [if_pos (Or.inl rfl)]
    · exact absurd rfl h
  · rw [if_neg h0, if_neg h]

/-- Helper: normalization keeps path characters. -/
theorem normalizePath_sub (path : List Char) (c : Char)
    (hc : c ∈ normalizePath path) : c ∈ path := by
  unfold normalizePath at hc
  by_cases h0 : path = [] ∨ path = ['/']
  · rw [if_pos h0] at hc
    cases hc
  · rw [if_neg h0] at hc
    by_cases h1 : path.getLast? = some '/'
    · rw [if_pos h1] at hc
      exact (List.dropLast_sublist path).subset hc
    · rw [if_neg h1] at hc
      exact hc

/-- Helper: normalization keeps the leading-slash shape. -/
theorem normalizePath_shape (path : List Char)
    (h : path = [] ∨ path.head? = some '/') :
    normalizePath path = [] ∨ (normalizePath path).head? = some '/' := by
  unfold normalizePath
  by_cases h0 : path = [] ∨ path = ['/']
  · rw [if_pos h0]
    exact Or.inl rfl
  · rw [if_neg h0]
    rcases h with rfl | hhead
    · exact absurd (Or.inl rfl) h0
    · by_cases h1 : path.getLast? = some '/'
      · rw [if_pos h1]
        cases path with
        | nil => exact Or.inl rfl
        | cons c rest =>
          cases rest with
          | nil => exact Or.inl rfl
          | cons d ds =>
            right
            exact hhead
      · rw [if_neg h1]
        exact Or.inr hhead

/-- Helper: characters of a sorted escape-free query are "=", "&" or
query characters. -/
theorem mem_sortQueryParams (q : List Char) (h1 : '%' ∉ q) (h2 : '+' ∉ q)
    (c : Char) (hc : c ∈ sortQueryParams q) :
    c = '=' ∨ c = '&' ∨ c ∈ q := by
  unfold sortQueryParams at hc
  cases hpq : parseQuery q with
  | none =>
    rw [hpq] at hc
    exact Or.inr (Or.inr hc)
  | some pairs =>
    rw [hpq] at hc
    try simp only [] at hc
    rcases mem_rebuildQuery (groupSort pairs) c hc with h | h | ⟨p, hp, hm⟩
    · exact Or.inl h
    · exact Or.inr (Or.inl h)
    · have hcl := parseQuery_clean q pairs hpq h1 h2 p (groupSort_sub pairs p hp)
      rcases hm with hm | hm
      · exact Or.inr (Or.inr (hcl.1 c hm).1)
      · exact Or.inr (Or.inr (hcl.2 c hm).1)

/-- C9 counterexample: Canonicalize is not idempotent.  On
"http://x.com//" it succeeds with canonical URL "http://x.com/" (the
path "//" loses one trailing slash), but canonicalizing that output
trims the remaining root slash and returns the different URL
"http://x.com". -/
theorem canonicalize_not_idempotent :
    Canonicalize ("http://x.com//".toList) =
      some ("http://x.com/".toList, "x.com".toList) ∧
    Canonicalize ("http://x.com/".toList) =
      some ("http://x.com".toList, "x.com".toList) ∧
    ("http://x.com".toList : List Char) ≠ "http://x.com/".toList :=
  ⟨by decide, by decide, by decide⟩

/-- C9 (amended): Canonicalize is idempotent on every input whose
canonicalization does not hit one of the genuine non-fixpoints of the
Go code: the normalized path must not still end in "/" (normalizePath
trims only one trailing slash), the query must be free of "%" and "+"
(re-parsing the rebuilt query re-decodes escapes), the returned host
must be nonempty (stripping the port of ":80" leaves an unparseable
empty host) and must not itself carry a default port again (the strip
happens once per run).  Under those conditions a second Canonicalize
returns exactly the same canonical URL and host. -/
theorem Canonicalize_idempotent (raw : List Char) (u : URLParts)
    (c h : List Char)
    (hp : parseURL raw = some u)
    (hc : Canonicalize raw = some (c, h))
    (hpath : (normalizePath u.path).getLast? ≠ some '/')
    (hq1 : '%' ∉ u.query) (hq2 : '+' ∉ u.query)
    (hh : h ≠ [])
    (hport1 : ¬(u.scheme = "http".toList ∧ port h = "80".toList))
    (hport2 : ¬(u.scheme = "https".toList ∧ port h = "443".toList)) :
    Canonicalize c = some (c, h) := by
  obtain ⟨hhostsafe, hpathsafe, hhostne, hshape, hfragfree⟩ :=
    parseURL_spec raw u hp
  unfold Canonicalize at hc
  rw [hp] at hc
  try simp only [] at hc
  by_cases hs : u.scheme = "http".toList ∨ u.scheme = "https".toList
  · rw [if_pos hs] at hc
    try simp only [] at hc
    rw [Option.some.injEq, Prod.mk.injEq] at hc
    obtain ⟨hcEq, hhEq⟩ := hc
    have hslower : toLowerList u.scheme = u.scheme := by
      rcases hs with hsh | hsh <;> rw [hsh] <;> decide
    have hhsub : ∀ ch ∈ h, ch ∈ toLowerList u.host := by
      intro ch hch
      rw [← hhEq] at hch
      by_cases hb1 : toLowerList u.scheme = "http".toList ∧
          port (toLowerList u.host) = "80".toList
      · rw [if_pos hb1] at hch
        exact hostname_sub _ ch hch
      · rw [if_neg hb1] at hch
        by_cases hb2 : toLowerList u.scheme = "https".toList ∧
            port (toLowerList u.host) = "443".toList
        · rw [if_pos hb2] at hch
          exact hostname_sub _ ch hch
        · rw [if_neg hb2] at hch
          exact hch
    have hhfix : toLowerList h = h :=
      toLowerList_fix h
        (fun ch hch => mem_toLowerList_fix _ ch (hhsub ch hch))
    have hhsafe : h.all hostSafeChar = true := by
      rw [List.all_eq_true]
      intro ch hch
      obtain ⟨d, hd, rfl⟩ := List.mem_map.mp (hhsub ch hch)
      exact hostSafeChar_toLower d (List.all_eq_true.mp hhostsafe d hd)
    have hPsafe : (normalizePath u.path).all pathSafeChar = true := by
      rw [List.all_eq_true]
      intro ch hch
      exact List.all_eq_true.mp hpathsafe ch (normalizePath_sub u.path ch hch)
    have hPshape := normalizePath_shape u.path hshape
    have hPfix : normalizePath (normalizePath u.path) = normalizePath u.path :=
      normalizePath_fix _ hpath
    have hQfrag : '#' ∉ sortQueryParams u.query := by
      intro hm
      rcases mem_sortQueryParams u.query hq1 hq2 '#' hm with he | he | he
      · exact absurd he (by decide)
      · exact absurd he (by decide)
      · exact hfragfree he
    have hQ : (if u.query = [] then [] else sortQueryParams u.query) =
        sortQueryParams u.query := by
      by_cases hqe : u.query = []
      · rw [if_pos hqe, hqe]
        rfl
      · rw [if_neg hqe]
    rw [hhEq] at hcEq
    rw [hslower] at hcEq
    rw [hQ] at hcEq
    have hpr := parseURL_render u.scheme h (normalizePath u.path)
      (sortQueryParams u.query) hs hhsafe hh hPsafe hPshape hQfrag
    rw [hslower] at hpr
    have hparse2 : parseURL c =
        some ⟨u.scheme, h, normalizePath u.path, sortQueryParams u.query, []⟩ := by
      rw [← hcEq]
      exact hpr
    unfold Canonicalize
    rw [hparse2]
    try simp only []
    rw [if_pos hs]
    rw [hslower, hhfix]
    rw [if_neg hport1, if_neg hport2]
    rw [hPfix]
    rw [show (if sortQueryParams u.query = [] then []
        else sortQueryParams (sortQueryParams u.query)) =
        sortQueryParams u.query from by
      by_cases hqe : sortQueryParams u.query = []
      · rw [if_pos hqe, hqe]
      · rw [if_neg hqe, sortQueryParams_stable u.query hq1 hq2]]
    rw [hcEq]
  · rw [if_neg hs] at hc
    cases hc

/-- C9 witness: the amended idempotence at the concrete input
"http://A.b/p/?b=2&a=1", whose canonical form "http://a.b/p?a=1&b=2"
canonicalizes to itself. -/
theorem Canonicalize_idempotent_witness :
    Canonicalize ("http://a.b/p?a=1&b=2".toList) =
      some ("http://a.b/p?a=1&b=2".toList, "a.b".toList) :=
  Canonicalize_idempotent ("http://A.b/p/?b=2&a=1".toList)
    ⟨"http".toList, "A.b".toList, "/p/".toList, "b=2&a=1".toList, []⟩
    ("http://a.b/p?a=1&b=2".toList) ("a.b".toList)
    (by decide) (by decide) (by decide) (by decide) (by decide)
    (by decide) (by decide) (by decide)
